import Mathlib

/-!
Verification of the jsonify JSON codec library (C++ headers under src/)
against its natural-language specification.  The development shallowly
embeds the relevant data structures and member functions: `json::Value`
and its coercions (json-value.h), the viewer arena (json-viewer.h), the
token deserializer's number machine and string reader (json-deserializer.h),
the two string escapers (json-serializer.h and json-serialize.h), the
streaming-builder state machine (json-builder.h together with the token
serializer json-serializer.h), and the streaming-reader state machine
(json-reader.h).  Machine integers are modelled as `Nat`/`Int` with
explicit reductions modulo 2^64 where the C++ code converts; `double`
payloads are modelled as rationals (an exact-value idealization, noted
at each place where it matters).
-/

set_option linter.unusedVariables false

namespace Jsonify

/-- JSON kind tags, mirroring `json::Type` in json-common.h. -/
inductive JType
  | null
  | boolean
  | unumber
  | inumber
  | real
  | string
  | array
  | object
deriving DecidableEq, Repr

/-- Decoded string contents (`json::Str` after transcoding) as a list of codepoints. -/
abbrev JStr := List Nat

/-- Error kinds of spec §7, mirroring the exception classes of json-common.h. -/
inductive JErr
  | typeErr
  | rangeErr
  | builderErr
  | readerErr
  | deserializeErr
deriving DecidableEq, Repr

/-- DOM value: the variant held by `json::Value` (json-value.h).  `uint64_t`
payloads are `Nat` (kept below 2^64 by every constructor path of the code),
`int64_t` payloads are `Int`, `double` payloads are rationals. -/
inductive JValue
  | vnull
  | vbool (b : Bool)
  | vunum (n : Nat)
  | vinum (i : Int)
  | vreal (q : ℚ)
  | vstr (s : JStr)
  | varr (elems : List JValue)
  | vobj (entries : List (JStr × JValue))

/-- Modulus of `uint64_t`. -/
def U64MOD : Nat := 2 ^ 64

/-- C++ conversion of an `int64_t` value to `uint64_t`: reduction modulo 2^64. -/
def u64ofInt (i : Int) : Nat := (i % (U64MOD : Int)).toNat

/-- C++ (C++20, well-defined) conversion of a `uint64_t` value to `int64_t`:
wrap modulo 2^64 into the interval [-2^63, 2^63). -/
def i64ofNat (n : Nat) : Int :=
  if n % U64MOD < 2 ^ 63 then ((n % U64MOD : Nat) : Int)
  else ((n % U64MOD : Nat) : Int) - (U64MOD : Int)

/-- `json::Value::size()` (json-value.h 435-443): element count for arrays and
objects, character count for strings, zero for every other kind. -/
def JValue.size : JValue → Nat
  | .varr l => l.length
  | .vobj l => l.length
  | .vstr s => s.length
  | _ => 0

/-- `json::Value::empty()` (json-value.h 453-461): emptiness for arrays, objects
and strings, `true` for every other kind. -/
def JValue.empty : JValue → Bool
  | .varr l => l.isEmpty
  | .vobj l => l.isEmpty
  | .vstr s => s.isEmpty
  | _ => true

/-- `json::Value::fEnsureType` (json-value.h 221-269): coerce the slot to the
requested kind, defaulting when no conversion is implemented.  Note that the
numeric conversions implemented by the source are exactly: non-negative
`INum` to `UNum`, `UNum` to `INum` (C++ wrap-around conversion), and
`UNum`/`INum` to `Real`; every other mismatch resets to the default value.
The `UNum`/`INum`-to-`Real` branches are exact here (rational model) while
the C++ `double` conversion rounds for magnitudes above 2^53; theorems about
those branches therefore restrict to the exactly-representable range. -/
def fEnsureType (v : JValue) (t : JType) : JValue :=
  match t with
  | .array => match v with | .varr _ => v | _ => .varr []
  | .object => match v with | .vobj _ => v | _ => .vobj []
  | .string => match v with | .vstr _ => v | _ => .vstr []
  | .unumber =>
      match v with
      | .vunum _ => v
      | .vinum i => if 0 ≤ i then .vunum (u64ofInt i) else .vunum 0
      | _ => .vunum 0
  | .inumber =>
      match v with
      | .vinum _ => v
      | .vunum n => .vinum (i64ofNat n)
      | _ => .vinum 0
  | .real =>
      match v with
      | .vreal _ => v
      | .vunum n => .vreal (n : ℚ)
      | .vinum i => .vreal (i : ℚ)
      | _ => .vreal 0
  | .boolean => match v with | .vbool _ => v | _ => .vbool false
  | .null => match v with | .vnull => v | _ => .vnull

/-- Mutable `json::Value::unum()` (json-value.h 362-365): coerce via
`fEnsureType(unumber)` and return a reference to the `UNum` slot.  Modelled
as the pair (value after coercion, payload referenced). -/
def JValue.unumMut (v : JValue) : JValue × Nat :=
  let v' := fEnsureType v .unumber
  (v', match v' with | .vunum n => n | _ => 0)

/-- Mutable `json::Value::inum()` (json-value.h 366-369). -/
def JValue.inumMut (v : JValue) : JValue × Int :=
  let v' := fEnsureType v .inumber
  (v', match v' with | .vinum i => i | _ => 0)

/-- Mutable `json::Value::real()` (json-value.h 370-373). -/
def JValue.realMut (v : JValue) : JValue × ℚ :=
  let v' := fEnsureType v .real
  (v', match v' with | .vreal q => q | _ => 0)

/-- Lookup in the modelled `json::Obj` (a `std::unordered_map`; keys unique,
modelled as first match in the association list). -/
def objLookup (entries : List (JStr × JValue)) (k : JStr) : Option JValue :=
  match entries with
  | [] => none
  | (k', v) :: r => if k' = k then some v else objLookup r k

/-- Read-only `json::Value::at(const json::Str&)` (json-value.h 478-488):
throws `type` unless the value is an object; a missing key yields the shared
constant null value (the function is const, so the object is unchanged). -/
def JValue.atConst (v : JValue) (k : JStr) : Except JErr JValue :=
  match v with
  | .vobj entries =>
      match objLookup entries k with
      | some x => .ok x
      | none => .ok .vnull
  | _ => .error .typeErr

/-- `std::unordered_map::operator[]`: insert a default-constructed (null)
value when the key is missing. -/
def objIndex (entries : List (JStr × JValue)) (k : JStr) : List (JStr × JValue) :=
  match objLookup entries k with
  | some _ => entries
  | none => entries ++ [(k, .vnull)]

/-- Mutable `json::Value::at(const json::Str&)` (json-value.h 489-492):
`fEnsureType(object)` then map `operator[]`.  Modelled as the pair
(value after the call, contents of the returned reference). -/
def JValue.atMut (v : JValue) (k : JStr) : JValue × JValue :=
  match fEnsureType v .object with
  | .vobj entries =>
      let entries' := objIndex entries k
      (.vobj entries', (objLookup entries' k).getD .vnull)
  | v' => (v', .vnull)

/-! View arena (json-viewer.h). -/

/-- `detail::StrViewObject`: a slice of the shared string blob. -/
structure StrViewObject where
  offset : Nat
  length : Nat
deriving DecidableEq, Repr

/-- `detail::ArrViewObject`: a range of entries. -/
structure ArrViewObject where
  offset : Nat
  size : Nat
deriving DecidableEq, Repr

/-- `detail::ObjViewObject`: a range of interleaved key/value entries. -/
structure ObjViewObject where
  offset : Nat
  keysAndValues : Nat
deriving DecidableEq, Repr

/-- `detail::ViewEntry`: tagged entry of the view arena. -/
inductive ViewEntry
  | veStr (s : StrViewObject)
  | veArr (a : ArrViewObject)
  | veObj (o : ObjViewObject)
  | veNull
  | veUNum (n : Nat)
  | veINum (i : Int)
  | veReal (q : ℚ)
  | veBool (b : Bool)
deriving DecidableEq

/-- `detail::ViewState`: entry array plus shared string blob. -/
structure ViewState where
  entries : List ViewEntry
  strings : JStr
deriving DecidableEq

/-- `detail::ViewState::str` (json-viewer.h 36-39): decode entry `i` as a slice
of the blob.  The C++ does an unchecked `std::get`; mismatching entries are
modelled as `none` (the source only calls this on key entries). -/
def ViewState.str (st : ViewState) (i : Nat) : Option JStr :=
  match st.entries.get? i with
  | some (.veStr s) => some ((st.strings.drop s.offset).take s.length)
  | _ => none

/-- Linear scan of `detail::ViewObjLookup` (json-viewer.h 171-174): first even
index below `keysAndValues` whose key slice equals `k`. -/
def viewScan (k : JStr) (obj : ObjViewObject) (st : ViewState) : Option Nat :=
  ((List.range obj.keysAndValues).filter (fun j => j % 2 = 0)).find?
    (fun j => st.str (obj.offset + j) = some k)

/-- `detail::ViewObjLookup` (json-viewer.h 165-176): cached index check, then
linear scan.  Returns the updated `lastKey` cache on success, `none` on miss. -/
def ViewObjLookup (k : JStr) (obj : ObjViewObject) (lastKey : Nat) (st : ViewState) :
    Option Nat :=
  if lastKey < obj.keysAndValues ∧ st.str (obj.offset + lastKey) = some k then some lastKey
  else viewScan k obj st

/-- A `json::Viewer` handle: its variant payload plus the shared state and the
per-handle key-lookup cache.  The shared constant `nullValue` viewer carries
no state. -/
structure ViewerM where
  entry : ViewEntry
  state : Option ViewState
  lastKey : Nat
deriving DecidableEq

/-- The shared constant `nullValue` viewer (json-viewer.h 343). -/
def nullViewer : ViewerM := ⟨.veNull, none, 0⟩

/-- The private `Viewer` constructor (json-viewer.h 197-200): fetch the entry
and initialize the key cache to `keysAndValues` for objects. -/
def mkViewer (st : ViewState) (index : Nat) : ViewerM :=
  let e := (st.entries.get? index).getD .veNull
  { entry := e
    state := some st
    lastKey := match e with | .veObj o => o.keysAndValues | _ => 0 }

/-- `json::Viewer::at(json::StrView)` (json-viewer.h 342-352): throws `type`
unless the viewer is an object; missing keys yield the constant null viewer. -/
def ViewerM.at (vw : ViewerM) (k : JStr) : Except JErr ViewerM :=
  match vw.entry with
  | .veObj obj =>
      match vw.state with
      | some st =>
          match ViewObjLookup k obj vw.lastKey st with
          | some idx => .ok (mkViewer st (obj.offset + idx + 1))
          | none => .ok nullViewer
      | none => .ok nullViewer
  | _ => .error .typeErr

/-- `json::Viewer::size()` (json-viewer.h 302-310). -/
def ViewerM.size (vw : ViewerM) : Nat :=
  match vw.entry with
  | .veArr a => a.size
  | .veObj o => o.keysAndValues / 2
  | .veStr s => s.length
  | _ => 0

/-- `json::Viewer::empty()` (json-viewer.h 320-328). -/
def ViewerM.empty (vw : ViewerM) : Bool :=
  match vw.entry with
  | .veArr a => a.size == 0
  | .veObj o => o.keysAndValues == 0
  | .veStr s => s.length == 0
  | _ => true

/-! Number deserialization (json-deserializer.h). -/

/-- States of the JSON-number machine, `detail::NumState` (json-deserializer.h 10-20). -/
inductive NumState
  | preSign
  | preDigits
  | inDigits
  | postDigits
  | preFraction
  | inFraction
  | preExpSign
  | preExponent
  | inExponent
deriving DecidableEq, Repr

/-- `detail::NumberValue`: the variant returned by `readNumber`. -/
inductive NumberValue
  | nvUNum (n : Nat)
  | nvINum (i : Int)
  | nvReal (q : ℚ)
deriving DecidableEq, Repr

/-- One character transition of the number machine's while loop
(json-deserializer.h 203-224); `none` means the loop breaks at this character. -/
def numStep (state : NumState) (c : Nat) : Option NumState :=
  if c = 45 ∧ (state = .preSign ∨ state = .preExpSign) then
    some (if state = .preSign then .preDigits else .preExponent)
  else if c = 43 ∧ state = .preExpSign then
    some .preExponent
  else if c = 46 ∧ (state = .inDigits ∨ state = .postDigits) then
    some .preFraction
  else if (c = 101 ∨ c = 69) ∧ (state = .inDigits ∨ state = .postDigits ∨ state = .inFraction) then
    some .preExpSign
  else if 48 ≤ c ∧ c ≤ 57 ∧ state ≠ .postDigits then
    some (match state with
      | .preSign | .preDigits => if c = 48 then .postDigits else .inDigits
      | .preFraction => .inFraction
      | .preExpSign | .preExponent => .inExponent
      | s => s)
  else
    none

/-- The scanning loop of `readNumber` (json-deserializer.h 199-229): final
state, minus-seen flag, consumed buffer and unconsumed rest. -/
def numScan : NumState → Bool → List Nat → NumState × Bool × List Nat × List Nat
  | state, neg, [] => (state, neg, [], [])
  | state, neg, c :: rest =>
    match numStep state c with
    | none => (state, neg, [], c :: rest)
    | some s' =>
        let neg' := if c = 45 ∧ state = .preSign then true else neg
        let (fs, fneg, buf, rst) := numScan s' neg' rest
        (fs, fneg, c :: buf, rst)

/-- Value of a decimal digit string. -/
def decValFrom (acc : Nat) : List Nat → Nat
  | [] => acc
  | c :: r => decValFrom (acc * 10 + (c - 48)) r

/-- Value of a decimal digit string. -/
def decVal (ds : List Nat) : Nat := decValFrom 0 ds

/-- Decimal `uint64_t` parse (`str::ParseNumTo` on the scanned buffer);
`none` models `str::NumResult::range` (overflow). -/
def parseU64 (buf : List Nat) : Option Nat :=
  if decVal buf < U64MOD then some (decVal buf) else none

/-- Decimal `int64_t` parse of the scanned buffer; `none` models `range`.
The source invokes this only when a leading minus was consumed, so the
buffer is a minus sign followed by digits. -/
def parseI64 (buf : List Nat) : Option Int :=
  match buf with
  | 45 :: ds => if decVal ds ≤ 2 ^ 63 then some (-(decVal ds : Int)) else none
  | ds => if decVal ds < 2 ^ 63 then some ((decVal ds : Int)) else none

/-- Split the leading decimal digits off a buffer. -/
def takeDigits : List Nat → List Nat × List Nat
  | [] => ([], [])
  | c :: r =>
      if 48 ≤ c ∧ c ≤ 57 then
        let (d, rest) := takeDigits r
        (c :: d, rest)
      else ([], c :: r)

/-- Exact rational value of a scanned JSON-number buffer: the model of the
floating-point fallback parse.  The C++ parse rounds to the nearest `double`;
the kind-classification claims are independent of the numeric value. -/
def ratOfNumBuf (buf : List Nat) : ℚ :=
  let (neg, b1) := match buf with | 45 :: r => (true, r) | r => (false, r)
  let (ip, b2) := takeDigits b1
  let (fp, b3) := match b2 with | 46 :: r => takeDigits r | r => ([], r)
  let ex : Int := match b3 with
    | 101 :: 45 :: r => -((decVal (takeDigits r).1 : Int))
    | 101 :: 43 :: r => (decVal (takeDigits r).1 : Int)
    | 101 :: r => (decVal (takeDigits r).1 : Int)
    | 69 :: 45 :: r => -((decVal (takeDigits r).1 : Int))
    | 69 :: 43 :: r => (decVal (takeDigits r).1 : Int)
    | 69 :: r => (decVal (takeDigits r).1 : Int)
    | _ => 0
  let mant : ℚ := ((decVal ip : ℚ) * (10 : ℚ) ^ fp.length + (decVal fp : ℚ)) / (10 : ℚ) ^ fp.length
  (if neg then -1 else 1) * mant * (10 : ℚ) ^ ex

/-- `Deserializer::readNumber` (json-deserializer.h 194-255): run the number
machine, reject non-accepting final states, parse pure-integral buffers as
unsigned (no sign seen) or signed (sign seen) 64-bit integers, and fall back
to the floating-point parse of the same buffer on `range` or for
fraction/exponent forms.  Returns the value and the unconsumed rest. -/
def readNumber (input : List Nat) : Option (NumberValue × List Nat) :=
  let (state, neg, buf, rest) := numScan .preSign false input
  if state = .preSign ∨ state = .preDigits ∨ state = .preFraction ∨
      state = .preExpSign ∨ state = .preExponent then
    none
  else if state = .inDigits ∨ state = .postDigits then
    if neg then
      match parseI64 buf with
      | some i => some (.nvINum i, rest)
      | none => some (.nvReal (ratOfNumBuf buf), rest)
    else
      match parseU64 buf with
      | some n => some (.nvUNum n, rest)
      | none => some (.nvReal (ratOfNumBuf buf), rest)
  else
    some (.nvReal (ratOfNumBuf buf), rest)

/-- Kind of a parsed number value. -/
def NumberValue.kind : NumberValue → JType
  | .nvUNum _ => .unumber
  | .nvINum _ => .inumber
  | .nvReal _ => .real

/-- The number-classification rule as the specification words it: accepting
state `inDigits`/`postDigits` with no sign seen parses as unsigned integer,
with a sign as signed integer; all other accepting states, or an out-of-range
integer parse, yield a floating-point real. -/
def specNumberKind (state : NumState) (neg : Bool) (buf : List Nat) : JType :=
  if (state = .inDigits ∨ state = .postDigits) ∧ ¬neg then
    if (parseU64 buf).isSome then .unumber else .real
  else if (state = .inDigits ∨ state = .postDigits) ∧ neg then
    if (parseI64 buf).isSome then .inumber else .real
  else
    .real

/-! String escaping on the write side (json-serialize.h and json-serializer.h)
and string decoding on the read side (json-deserializer.h). -/

/-- UTF-16 encoding of one codepoint, as the transcoder produces it: one unit
for BMP codepoints, a surrogate pair above the BMP; lone surrogates and
out-of-range codepoints are transcoding errors producing no units. -/
def utf16Units (cp : Nat) : List Nat :=
  if cp < 0x10000 then
    if 0xd800 ≤ cp ∧ cp ≤ 0xdfff then [] else [cp]
  else if cp ≤ 0x10ffff then
    [0xd800 + (cp - 0x10000) / 0x400, 0xdc00 + (cp - 0x10000) % 0x400]
  else []

/-- The six codepoints of a `\uXXXX` escape (`fWriteJsonU16` /
`fJsonUEscape`, lowercase hex digits). -/
def jsonU16Escape (val : Nat) : List Nat :=
  let hexDig (d : Nat) : Nat := if d < 10 then 48 + d else 97 + (d - 10)
  [92, 117, hexDig ((val / 4096) % 16), hexDig ((val / 256) % 16),
    hexDig ((val / 16) % 16), hexDig (val % 16)]

/-- Output of one input codepoint in `detail::Serializer<ChType>::fWriteString`
(json-serialize.h 175-211), the string writer of `json::Serialize` and
`json::ToString`.  The carriage-return branch of the source maps the character
to the letter `n` (json-serialize.h 197-198), so a carriage return is emitted
as the escape for a newline.  `std::isprint` under the default locale together
with the `c < 0x80` guard admits exactly 0x20..0x7e. -/
def fWriteStringChar (cp : Nat) : List Nat :=
  match utf16Units cp with
  | [c] =>
      if c = 8 then [92, 98]
      else if c = 12 then [92, 102]
      else if c = 10 then [92, 110]
      else if c = 13 then [92, 110]
      else if c = 9 then [92, 116]
      else if c ≠ 92 ∧ c ≠ 34 then
        if 32 ≤ c ∧ c ≤ 126 then [c] else jsonU16Escape c
      else [92, c]
  | out => (out.map jsonU16Escape).flatten

/-- `detail::Serializer<ChType>::fWriteString` (json-serialize.h 168-213):
opening quote, escaped characters, closing quote. -/
def fWriteString (s : JStr) : JStr :=
  34 :: ((s.map fWriteStringChar).flatten ++ [34])

/-- Output of one input codepoint in `detail::Serializer::fString` of the
streaming serializer (json-serializer.h 40-71), parametrized by the external
printability classifier `cp::prop::IsPrint`. -/
def fStringChar (isPrint : Nat → Bool) (cp : Nat) : List Nat :=
  match utf16Units cp with
  | [c] =>
      if c = 8 then [92, 98]
      else if c = 12 then [92, 102]
      else if c = 10 then [92, 110]
      else if c = 13 then [92, 114]
      else if c = 9 then [92, 116]
      else if c = 92 then [92, 92]
      else if c = 34 then [92, 34]
      else if isPrint c then [c]
      else jsonU16Escape c
  | out => (out.map jsonU16Escape).flatten

/-- `detail::Serializer::fString` (json-serializer.h 34-73): the string writer
used by the streaming builder's token serializer. -/
def fString (isPrint : Nat → Bool) (s : JStr) : JStr :=
  34 :: ((s.map (fStringChar isPrint)).flatten ++ [34])

/-- Hexadecimal digit value (`cp::ascii::GetRadix` restricted to hex). -/
def hexVal (c : Nat) : Option Nat :=
  if 48 ≤ c ∧ c ≤ 57 then some (c - 48)
  else if 97 ≤ c ∧ c ≤ 102 then some (c - 87)
  else if 65 ≤ c ∧ c ≤ 70 then some (c - 55)
  else none

/-- `Deserializer::fParseEscape` (json-deserializer.h 79-114): decode one
escape sequence starting after the backslash; the boolean marks `\uHHHH`
escapes, whose value is a UTF-16 code unit. -/
def fParseEscape : List Nat → Option ((Nat × Bool) × List Nat)
  | [] => none
  | c :: rest =>
    if c = 34 ∨ c = 92 ∨ c = 47 then some ((c, false), rest)
    else if c = 98 then some ((8, false), rest)
    else if c = 102 then some ((12, false), rest)
    else if c = 110 then some ((10, false), rest)
    else if c = 114 then some ((13, false), rest)
    else if c = 116 then some ((9, false), rest)
    else if c = 117 then
      match rest with
      | h1 :: h2 :: h3 :: h4 :: r =>
        match hexVal h1, hexVal h2, hexVal h3, hexVal h4 with
        | some a, some b, some c3, some d =>
            some ((((a * 16 + b) * 16 + c3) * 16 + d, true), r)
        | _, _, _, _ => none
      | _ => none
    else none

/-- Decode a UTF-16 unit sequence to codepoints (`str::TranscodeAllTo` under
the default replace-on-error policy): surrogate pairs combine, lone
surrogates become U+FFFD. -/
def decodeUtf16 : List Nat → List Nat
  | [] => []
  | [u] => if 0xd800 ≤ u ∧ u ≤ 0xdfff then [0xfffd] else [u]
  | u :: v :: r2 =>
    if 0xd800 ≤ u ∧ u ≤ 0xdbff then
      if 0xdc00 ≤ v ∧ v ≤ 0xdfff then
        (0x10000 + (u - 0xd800) * 0x400 + (v - 0xdc00)) :: decodeUtf16 r2
      else 0xfffd :: decodeUtf16 (v :: r2)
    else if 0xdc00 ≤ u ∧ u ≤ 0xdfff then 0xfffd :: decodeUtf16 (v :: r2)
    else u :: decodeUtf16 (v :: r2)

/-- `cp::prop::IsControl`: the Unicode Cc category. -/
def cpIsControl (c : Nat) : Bool := c < 32 ∨ (127 ≤ c ∧ c ≤ 159)

/-- Escape-collection loop of `readString` (json-deserializer.h 292-317):
collect consecutive `\uHHHH` units into a UTF-16 sequence, flush it through
the transcoder, and append a trailing non-`\u` escape character verbatim.
The source bounds the collected sequence by the (external) inline-buffer
capacity; the model collects without that bound. -/
def readEscapes : Nat → List Nat → List Nat → Option (List Nat × List Nat)
  | 0, _, _ => none
  | fuel + 1, seq, input =>
    match fParseEscape input with
    | none => none
    | some ((val, uEsc), r) =>
      if uEsc then
        match r with
        | 92 :: r2 => readEscapes fuel (seq ++ [val]) r2
        | r2 => some (decodeUtf16 (seq ++ [val]), r2)
      else
        some (decodeUtf16 seq ++ [val], r)

/-- Main loop of `Deserializer::readString` (json-deserializer.h 264-318),
after the opening quote: raw control characters are rejected, escapes are
decoded, and the closing quote ends the string. -/
def readStringLoop : Nat → JStr → List Nat → Option (JStr × List Nat)
  | 0, _, _ => none
  | fuel + 1, acc, input =>
    match input with
    | [] => none
    | c :: rest =>
      if c = 34 then some (acc, rest)
      else if cpIsControl c then none
      else if c ≠ 92 then readStringLoop fuel (acc ++ [c]) rest
      else
        match readEscapes (rest.length + 1) [] rest with
        | none => none
        | some (chunk, r) => readStringLoop fuel (acc ++ chunk) r

/-- `Deserializer::readString` for a non-key string whose opening quote is the
first input character: decoded contents and unconsumed rest. -/
def readString (input : List Nat) : Option (JStr × List Nat) :=
  match input with
  | 34 :: rest => readStringLoop (rest.length + 1) [] rest
  | _ => none

/-- `json::ToString` specialized to a string-kind DOM value: the one-shot
serializer reaches `fWriteString` for it (json-serialize.h 333-349, 389-394). -/
def toStringOfStr (s : JStr) : JStr := fWriteString s

/-- `json::Deserialize` specialized to an input consisting of a single JSON
string token: the parser reaches `readString` and then requires end of input
(json-deserialize.h 36-39, 70-73). -/
def deserializeStr (input : List Nat) : Option JValue :=
  match readString input with
  | some (s, []) => some (.vstr s)
  | _ => none

mutual

/-- `json::Value::operator==` (json-value.h 101-150): structural equality with
cross-kind numeric comparison.  Mixed `UNum`/`INum` comparison follows the
C++ built-in conversion of the `int64_t` operand to `uint64_t`; comparisons
against `Real` are exact on the rationals, where the C++ converts the integer
operand to `double` (exact below 2^53). -/
def valueEq : JValue → JValue → Bool
  | .vbool a, .vbool b => a == b
  | .vbool _, _ => false
  | .vobj a, .vobj b => a.length == b.length && objSubset a b
  | .vobj _, _ => false
  | .varr a, .varr b => arrEq a b
  | .varr _, _ => false
  | .vstr a, .vstr b => a == b
  | .vstr _, _ => false
  | .vnull, .vnull => true
  | .vnull, _ => false
  | .vreal a, .vreal b => a == b
  | .vreal a, .vinum i => a == (i : ℚ)
  | .vreal a, .vunum n => a == (n : ℚ)
  | .vreal _, _ => false
  | .vinum i, .vreal b => (i : ℚ) == b
  | .vinum i, .vinum j => i == j
  | .vinum i, .vunum n => u64ofInt i == n
  | .vinum _, _ => false
  | .vunum n, .vreal b => (n : ℚ) == b
  | .vunum n, .vinum i => n == u64ofInt i
  | .vunum n, .vunum m => n == m
  | .vunum _, _ => false

/-- Elementwise `std::vector` equality of DOM arrays. -/
def arrEq : List JValue → List JValue → Bool
  | [], [] => true
  | x :: xs, y :: ys => valueEq x y && arrEq xs ys
  | _, _ => false

/-- One inclusion of `std::unordered_map` equality: every key of the first
object maps to an equal value in the second. -/
def objSubset : List (JStr × JValue) → List (JStr × JValue) → Bool
  | [], _ => true
  | (k, v) :: r, b =>
      (match objLookup b k with
        | some w => valueEq v w
        | none => false) && objSubset r b

end

/-! Streaming builder (json-builder.h) over the token serializer
(json-serializer.h), modelled at serializer-call level. -/

/-- Primitive values as the token serializer's `primitive` call receives them. -/
inductive Prim
  | pNull
  | pBool (b : Bool)
  | pUNum (n : Nat)
  | pINum (i : Int)
  | pReal (q : ℚ)
  | pStr (s : JStr)
deriving DecidableEq

/-- Serializer-level tokens: each constructor is one call into
`detail::Serializer` (json-serializer.h): `begin`, `end`, `objectKey`,
`arrayValue` and `primitive`.  Commas, newlines and indentation are decided
inside those calls from the depth/sibling state and are not part of the
token-level well-formedness statement. -/
inductive Token
  | beginT (obj : Bool)
  | endT (obj : Bool)
  | keyT (k : JStr)
  | sepT
  | primT (p : Prim)
deriving DecidableEq

mutual

/-- Serializer calls issued by `BuildInstance::fWrite` on a `json::Value`
argument (json-builder.h 133-184).  The `fWriteValue` dispatch tests
`isINum()` before `isUNum()`, so an unsigned payload is emitted through
`inum()`, which applies the C++ wrap-around conversion. -/
def emitValue : JValue → List Token
  | .vnull => [.primT .pNull]
  | .vbool b => [.primT (.pBool b)]
  | .vunum n => [.primT (.pINum (i64ofNat n))]
  | .vinum i => [.primT (.pINum i)]
  | .vreal q => [.primT (.pReal q)]
  | .vstr s => [.primT (.pStr s)]
  | .varr l => .beginT false :: (emitArr l ++ [.endT false])
  | .vobj l => .beginT true :: (emitObj l ++ [.endT true])

/-- `BuildInstance::fWriteArray` body (json-builder.h 133-140): `arrayValue`
before every element. -/
def emitArr : List JValue → List Token
  | [] => []
  | x :: xs => (.sepT :: emitValue x) ++ emitArr xs

/-- `BuildInstance::fWriteObject` body (json-builder.h 141-148): `objectKey`
before every value. -/
def emitObj : List (JStr × JValue) → List Token
  | [] => []
  | p :: xs => (.keyT p.1 :: emitValue p.2) ++ emitObj xs

end

/-- `BuildInstance::State` (json-builder.h 71-76). -/
inductive HState
  | closed
  | value
  | arr
  | obj
deriving DecidableEq, Repr

/-- Per-handle data of a `BuildInstance` (json-builder.h 79-81): its state and,
for value handles, the stamp it was issued with. -/
structure HRec where
  hs : HState
  stamp : Nat
deriving DecidableEq, Repr

/-- The shared builder state (`detail::SharedState`, json-builder.h 52-66)
together with the pool of issued `BuildInstance` handles (identified by
allocation order) and the serializer calls made so far.  The head of `active`
is the top of the C++ stack. -/
structure BState where
  handles : List (Nat × HRec)
  active : List Nat
  valueStamp : Nat
  awaitingValue : Bool
  done : Bool
  out : List Token
  nextId : Nat
deriving DecidableEq

/-- Association-list lookup for handle records. -/
def hlookup (l : List (Nat × HRec)) (id : Nat) : Option HRec :=
  match l with
  | [] => none
  | (i, r) :: t => if i = id then some r else hlookup t id

/-- The state write `pState = State::closed` of one handle (the stamp field is
untouched by `fClose`). -/
def markClosed (hl : List (Nat × HRec)) (id : Nat) : List (Nat × HRec) :=
  hl.map (fun p => if p.1 = id then (p.1, ⟨HState.closed, p.2.stamp⟩) else p)

/-- First phase of `BuildInstance::fClose` (json-builder.h 114-123): a
composite emits its end token and pops the active stack (the handle is the
stack top in every call context of the source); the current pending value
clears `awaitingValue`. -/
def fCloseEmit (s : BState) (r : HRec) : BState :=
  if r.hs ≠ .value then
    { s with out := s.out ++ [Token.endT (r.hs = .obj)], active := s.active.tail }
  else if r.stamp = s.valueStamp ∧ s.awaitingValue then
    { s with awaitingValue := false }
  else s

/-- Second phase of `fClose` (json-builder.h 127): `pState = State::closed`. -/
def markClosedB (s : BState) (id : Nat) : BState :=
  { s with handles := markClosed s.handles id }

/-- Third phase of `fClose` (json-builder.h 128-129): an emptied active stack
marks the whole builder done. -/
def markDone (s : BState) : BState :=
  if s.active.isEmpty then { s with done := true } else s

/-- `BuildInstance::fClose` (json-builder.h 113-130) for handle `id`: the three
phases above in sequence. -/
def fClose (s : BState) (id : Nat) : BState :=
  match hlookup s.handles id with
  | none => s
  | some r => markDone (markClosedB (fCloseEmit s r) id)

/-- The while loop of `fEnsureCapture` (json-builder.h 110-111): close active
handles until `id` is the top.  Fuel-indexed by the stack depth; under the
builder invariant every `fClose` here closes a composite and pops one frame,
exactly as the C++ loop does. -/
def closeUpTo : Nat → BState → Nat → BState
  | 0, s, _ => s
  | fuel + 1, s, id =>
    match s.active with
    | [] => s
    | top :: _ => if top = id then s else closeUpTo fuel (fClose s top) id

/-- Null emission of `fEnsureCapture` (json-builder.h 103-107): a still
pending value is written out as `null` and the awaiting flag cleared. -/
def captureNull (s : BState) : BState :=
  if s.awaitingValue then
    { s with awaitingValue := false, out := s.out ++ [Token.primT .pNull] }
  else s

/-- Body of `fEnsureCapture` once the handle's record is fetched. -/
def captureRec (s : BState) (id : Nat) (r : HRec) : Except JErr BState :=
  if s.done ∨ r.hs = .closed ∨
      (r.hs = .value ∧ (r.stamp ≠ s.valueStamp ∨ s.awaitingValue = false)) then
    .error .builderErr
  else if r.hs = .value then .ok s
  else .ok (closeUpTo (captureNull s).active.length (captureNull s) id)

/-- `BuildInstance::fEnsureCapture` (json-builder.h 94-112) for handle `id`:
throw `builder` when the builder is done, the handle closed, or the handle a
stale or no-longer-awaited value; a current value handle captures without any
state change; a composite handle first emits `null` for a still-pending value
and then force-closes every handle above itself. -/
def captureE (s : BState) (id : Nat) : Except JErr BState :=
  match hlookup s.handles id with
  | none => .error .builderErr
  | some r => captureRec s id r

/-- `BuildInstance::passCapture` (json-builder.h 210-219): configure a fresh
handle (deterministically allocated at `nextId`) as the new top composite and
emit its begin token. -/
def passCapture (s : BState) (isObj : Bool) : BState :=
  { s with
    handles := (s.nextId, ⟨if isObj then .obj else .arr, 0⟩) :: s.handles
    active := s.nextId :: s.active
    nextId := s.nextId + 1
    out := s.out ++ [Token.beginT isObj] }

/-- `BuildInstance::nextValue` (json-builder.h 220-227): configure a fresh
handle as the next pending value under the incremented stamp. -/
def nextValue (s : BState) : BState :=
  { s with
    handles := (s.nextId, ⟨.value, s.valueStamp + 1⟩) :: s.handles
    valueStamp := s.valueStamp + 1
    awaitingValue := true
    nextId := s.nextId + 1 }

/-- Public builder operations (json-builder.h 296-500); the handle argument
names the `BuildInstance` the member function is invoked on.  `dropOp` is the
destructor of a handle. -/
inductive BOp
  | valSet (h : Nat) (v : JValue)
  | valObj (h : Nat)
  | valArr (h : Nat)
  | objAddVal (h : Nat) (k : JStr)
  | objAddArr (h : Nat) (k : JStr)
  | objAddObj (h : Nat) (k : JStr)
  | objAdd (h : Nat) (k : JStr) (v : JValue)
  | arrPushVal (h : Nat)
  | arrPushArr (h : Nat)
  | arrPushObj (h : Nat)
  | arrPush (h : Nat) (v : JValue)
  | closeOp (h : Nat)
  | dropOp (h : Nat)

/-- The handle an operation acts on. -/
def BOp.handle : BOp → Nat
  | .valSet h _ => h
  | .valObj h => h
  | .valArr h => h
  | .objAddVal h _ => h
  | .objAddArr h _ => h
  | .objAddObj h _ => h
  | .objAdd h _ _ => h
  | .arrPushVal h => h
  | .arrPushArr h => h
  | .arrPushObj h => h
  | .arrPush h _ => h
  | .closeOp h => h
  | .dropOp h => h

/-- Whether the operation is a handle destructor. -/
def BOp.isDrop : BOp → Bool
  | .dropOp _ => true
  | _ => false

/-- Kind discipline of the C++ handle classes: a `BuildValue`'s instance is
never in state `arr`/`obj`, a `BuildObject`'s never in `arr`/`value`, a
`BuildArray`'s never in `obj`/`value`, and only composites expose `close`.
An operation whose handle violates this cannot be expressed through the C++
API and is modelled as a no-op. -/
def roleOk : BOp → HState → Bool
  | .valSet _ _, hs => hs ≠ .arr && hs ≠ .obj
  | .valObj _, hs => hs ≠ .arr && hs ≠ .obj
  | .valArr _, hs => hs ≠ .arr && hs ≠ .obj
  | .objAddVal _ _, hs => hs ≠ .arr && hs ≠ .value
  | .objAddArr _ _, hs => hs ≠ .arr && hs ≠ .value
  | .objAddObj _ _, hs => hs ≠ .arr && hs ≠ .value
  | .objAdd _ _ _, hs => hs ≠ .arr && hs ≠ .value
  | .arrPushVal _, hs => hs ≠ .obj && hs ≠ .value
  | .arrPushArr _, hs => hs ≠ .obj && hs ≠ .value
  | .arrPushObj _, hs => hs ≠ .obj && hs ≠ .value
  | .arrPush _ _, hs => hs ≠ .obj && hs ≠ .value
  | .closeOp _, hs => hs ≠ .value
  | .dropOp _, _ => true

/-- Body of one public builder operation on a handle with record `r`
(json-builder.h 296-500), with the C++ exception as the `Except` error.
Every operation performs its capture check before touching the serializer,
exactly as in the source, so a thrown operation emits nothing. -/
def stepRun (s : BState) (op : BOp) (r : HRec) : Except JErr BState :=
  match op with
      | .valSet _ v => do
          let s1 ← captureE s op.handle
          .ok (fClose { s1 with out := s1.out ++ emitValue v } op.handle)
      | .valObj _ => do
          let s1 ← captureE s op.handle
          .ok (fClose (passCapture s1 true) op.handle)
      | .valArr _ => do
          let s1 ← captureE s op.handle
          .ok (fClose (passCapture s1 false) op.handle)
      | .objAddVal _ k => do
          let s1 ← captureE s op.handle
          .ok (nextValue { s1 with out := s1.out ++ [Token.keyT k] })
      | .objAddArr _ k => do
          let s1 ← captureE s op.handle
          .ok (passCapture { s1 with out := s1.out ++ [Token.keyT k] } false)
      | .objAddObj _ k => do
          let s1 ← captureE s op.handle
          .ok (passCapture { s1 with out := s1.out ++ [Token.keyT k] } true)
      | .objAdd _ k v => do
          let s1 ← captureE s op.handle
          .ok { s1 with out := s1.out ++ [Token.keyT k] ++ emitValue v }
      | .arrPushVal _ => do
          let s1 ← captureE s op.handle
          .ok (nextValue { s1 with out := s1.out ++ [Token.sepT] })
      | .arrPushArr _ => do
          let s1 ← captureE s op.handle
          .ok (passCapture { s1 with out := s1.out ++ [Token.sepT] } false)
      | .arrPushObj _ => do
          let s1 ← captureE s op.handle
          .ok (passCapture { s1 with out := s1.out ++ [Token.sepT] } true)
      | .arrPush _ v => do
          let s1 ← captureE s op.handle
          .ok { s1 with out := s1.out ++ [Token.sepT] ++ emitValue v }
      | .closeOp _ => do
          let s1 ← captureE s op.handle
          .ok (fClose s1 op.handle)
      | .dropOp _ =>
          if r.hs = .closed ∨ r.hs = .value then .ok s
          else do
            let s1 ← captureE s op.handle
            .ok (fClose s1 op.handle)

/-- One public builder operation: a handle id that names no issued handle is
not expressible in C++ and is a no-op, as is an operation whose handle class
cannot reach the given state (`roleOk`). -/
def stepE (s : BState) (op : BOp) : Except JErr BState :=
  match hlookup s.handles op.handle with
  | none => .ok s
  | some r => if ¬ roleOk op r.hs then .ok s else stepRun s op r

/-- Exception-absorbing step: a throwing operation leaves the builder state
unchanged (the capture check precedes every mutation), and the exception
propagates to the caller who may continue using other handles. -/
def stepB (s : BState) (op : BOp) : BState :=
  match stepE s op with
  | .ok s' => s'
  | .error _ => s

/-- The state right after `json::Build` (json-builder.h 507-515): one root
value handle (id 0) initialized by `initValue` (json-builder.h 187-192),
which pre-increments the stamp counter and sets `awaitingValue`. -/
def initB : BState :=
  { handles := [(0, ⟨.value, 1⟩)], active := [], valueStamp := 1,
    awaitingValue := true, done := false, out := [], nextId := 1 }

/-- Run a trace of builder operations from the initial state. -/
def runB (ops : List BOp) : BState := ops.foldl stepB initB

/-! Token-level well-formedness of the emitted document. -/

/-- Phase of the incremental token checker: expecting a value, expecting a
member boundary or close, or finished. -/
inductive Phase
  | pvalue
  | pitem
  | pdone
deriving DecidableEq

/-- Configuration of the checker: open-composite flags (innermost first) and
phase. -/
structure PCfg where
  stk : List Bool
  ph : Phase
deriving DecidableEq

/-- Completing a value at the current nesting: an empty stack means the single
top-level document is finished. -/
def pComplete (stk : List Bool) : PCfg :=
  match stk with
  | [] => ⟨[], .pdone⟩
  | _ => ⟨stk, .pitem⟩

/-- One token of the checker.  The accepted grammar: a document is one value;
a value is a primitive, or `begin b` followed by members and `end b`; inside
an object every member is `key` then a value, inside an array every member is
`sep` then a value (the builder issues the `arrayValue` separator call before
every element, including the first). -/
def pstep (c : PCfg) (t : Token) : Option PCfg :=
  match c.ph, t with
  | .pvalue, .primT _ => some (pComplete c.stk)
  | .pvalue, .beginT b => some ⟨b :: c.stk, .pitem⟩
  | .pitem, .endT b =>
      match c.stk with
      | b' :: rest => if b = b' then some (pComplete rest) else none
      | [] => none
  | .pitem, .keyT _ =>
      match c.stk with
      | true :: _ => some ⟨c.stk, .pvalue⟩
      | _ => none
  | .pitem, .sepT =>
      match c.stk with
      | false :: _ => some ⟨c.stk, .pvalue⟩
      | _ => none
  | _, _ => none

/-- Run the checker over a token list. -/
def prun (c : PCfg) : List Token → Option PCfg
  | [] => some c
  | t :: ts =>
    match pstep c t with
    | some c' => prun c' ts
    | none => none

/-- Initial checker configuration. -/
def pInit : PCfg := ⟨[], .pvalue⟩

/-- A token list is exactly one syntactically well-formed JSON document:
every begin is paired with exactly one matching end at the same depth, keys
and separators occur only in legal positions, and exactly one top-level value
is produced. -/
def WFDoc (toks : List Token) : Prop := prun pInit toks = some ⟨[], .pdone⟩

/-- The `end(obj)` flag a handle's close emits: whether its state is `obj`. -/
def objFlag (hl : List (Nat × HRec)) (id : Nat) : Bool :=
  match hlookup hl id with
  | some r => r.hs = .obj
  | none => false

/-- Object flags of a list of handle ids under a handle pool. -/
def flagsOf (hl : List (Nat × HRec)) (ids : List Nat) : List Bool :=
  ids.map (objFlag hl)

/-- Object flags of the active stack (innermost first), as the serializer's
end calls will see them. -/
def stackFlags (s : BState) : List Bool :=
  flagsOf s.handles s.active

/-- The end tokens emitted when force-closing the given active prefix. -/
def closeTokens (hl : List (Nat × HRec)) (pre : List Nat) : List Token :=
  pre.map (fun id => Token.endT (objFlag hl id))

/-- Checker configuration matching a builder state. -/
def bCfg (s : BState) : PCfg :=
  if s.done then ⟨[], .pdone⟩
  else ⟨stackFlags s, if s.awaitingValue then .pvalue else .pitem⟩

/-- The builder invariant: the emitted tokens drive the checker exactly to the
configuration determined by the shared state, the active stack consists of
the currently open composites (each handle's state matching), the stamp and
freshness bookkeeping is consistent, and `done` coincides with the emptied
stack. -/
structure BInv (s : BState) : Prop where
  run_out : prun pInit s.out = some (bCfg s)
  active_comp : ∀ id ∈ s.active, ∃ r, hlookup s.handles id = some r ∧ (r.hs = .arr ∨ r.hs = .obj)
  comp_active : ∀ id r, hlookup s.handles id = some r → (r.hs = .arr ∨ r.hs = .obj) → id ∈ s.active
  nodup_active : s.active.Nodup
  done_inv : s.done = true → s.active = [] ∧ s.awaitingValue = false
  stack_nonempty : s.done = false → s.awaitingValue = false → s.active ≠ []
  ids_fresh : ∀ p ∈ s.handles, p.1 < s.nextId

/-! Streaming reader (json-reader.h) over the token deserializer
(json-deserializer.h), modelled at lexical-token level (whitespace skipping
and character-level lexing abstracted into the tokens). -/

/-- Lexical tokens of the input stream as the pull deserializer consumes them:
structural punctuation, primitives (null/boolean/number, each fully consumed
by its read function), string values, and keys (a key is a string whose
trailing colon `readString(key = true)` also consumes). -/
inductive LTok
  | lBegin (obj : Bool)
  | lClose (obj : Bool)
  | lComma
  | lPrim (p : Prim)
  | lStr (s : JStr)
  | lKey (s : JStr)
deriving DecidableEq

/-- `ReaderState::Instance` (json-reader.h 50-56): composite kind, whether the
first child boundary was consumed (`opened`), and whether the instance still
holds its `self` ownership (not yet fetched by `open`). -/
structure RInst where
  object : Bool
  opened : Bool
  avail : Bool
deriving DecidableEq, Repr

/-- `detail::ReaderState` (json-reader.h 47-193): remaining input, active
composite instances (innermost first; the C++ vector's back is the head
here) identified by the stamp issued at their creation, and the stamp
counter. -/
structure RState where
  toks : List LTok
  activeR : List (Nat × RInst)
  nextStamp : Nat
deriving DecidableEq

/-- `Deserializer::checkIsEmpty` (json-deserializer.h 148-154): consume the
matching close bracket if it is next, else consume nothing. -/
def checkIsEmptyT (obj : Bool) (ts : List LTok) : Bool × List LTok :=
  match ts with
  | .lClose b :: r => if b = obj then (true, r) else (false, .lClose b :: r)
  | _ => (false, ts)

/-- `Deserializer::closeElseSeparator` (json-deserializer.h 136-147): consume
the matching close (true) or a comma (false); anything else is a
`deserialize` error. -/
def closeElseSeparatorT (obj : Bool) (ts : List LTok) : Except JErr (Bool × List LTok) :=
  match ts with
  | .lClose b :: r => if b = obj then .ok (true, r) else .error .deserializeErr
  | .lComma :: r => .ok (false, r)
  | _ => .error .deserializeErr

/-- `Deserializer::checkDone` (json-deserializer.h 320-325): after skipping
whitespace only end-of-stream may remain; at token level, the stream must be
exhausted, and any trailing non-whitespace token fails. -/
def checkDoneT (ts : List LTok) : Except JErr Unit :=
  match ts with
  | [] => .ok ()
  | _ => .error .deserializeErr

/-- `ReaderState::fValue` (json-reader.h 76-113): consume one upcoming value;
primitives and strings are materialized into the handed-out `Reader`,
composites push a fresh active instance stamped with the pre-incremented
counter.  An input with no value next is a `deserialize` error
(`peekOrOpenNext`). -/
def fValueR (s : RState) : Except JErr RState :=
  match s.toks with
  | .lPrim _ :: r => .ok { s with toks := r }
  | .lStr _ :: r => .ok { s with toks := r }
  | .lBegin b :: r =>
      .ok { toks := r
            activeR := (s.nextStamp + 1, ⟨b, false, true⟩) :: s.activeR
            nextStamp := s.nextStamp + 1 }
  | _ => .error .deserializeErr

/-- `ReaderState::fReadNextValue` (json-reader.h 114-143), acting on the top
active instance: consume either the close (pop, bump the stamp, and invoke
`checkDone` exactly when the stack empties) or the first-child/separator
boundary followed by the key (for objects) and the next value.  Returns
whether a value was read. -/
def fReadNext (s : RState) : Except JErr (Bool × RState) :=
  match s.activeR with
  | [] => .error .readerErr
  | (id, inst) :: below =>
    let step1 : Except JErr (Bool × List LTok) :=
      if inst.opened then closeElseSeparatorT inst.object s.toks
      else .ok (checkIsEmptyT inst.object s.toks)
    match step1 with
    | .error e => .error e
    | .ok (true, r) =>
        let s1 : RState := { toks := r, activeR := below, nextStamp := s.nextStamp + 1 }
        if below.isEmpty then
          match checkDoneT r with
          | .ok _ => .ok (false, s1)
          | .error e => .error e
        else .ok (false, s1)
    | .ok (false, r) =>
        let s2 : RState := { s with toks := r, activeR := (id, { inst with opened := true }) :: below }
        if inst.object then
          match s2.toks with
          | .lKey _ :: r2 => (fValueR { s2 with toks := r2 }).map (fun s3 => (true, s3))
          | _ => .error .deserializeErr
        else (fValueR s2).map (fun s3 => (true, s3))

/-- The drain loops of `next`/`close`/the state destructor (json-reader.h
69-73, 154-157, 188-192), merged: repeat `fReadNextValue` while more than
`target` instances remain active.  (The source's nested loops perform exactly
this call sequence: the inner loop runs to the first pop, the outer loop
retests the depth.)  Fuel-indexed; every successful `fReadNextValue` consumes
at least one token, so the input length bounds the iterations. -/
def drainTo : Nat → Nat → RState → Except JErr RState
  | 0, target, s => if s.activeR.length ≤ target then .ok s else .error .deserializeErr
  | fuel + 1, target, s =>
    if s.activeR.length ≤ target then .ok s
    else
      match fReadNext s with
      | .error e => .error e
      | .ok (_, s') => drainTo fuel target s'

/-- Position of instance `id` on the active stack, as the length of the stack
segment from `id` down to the bottom (the C++ bottom-based index), searched
from the top as the source does (json-reader.h 147-150). -/
def depthBelow (l : List (Nat × RInst)) (id : Nat) : Option Nat :=
  match l with
  | [] => none
  | (i, _) :: t => if i = id then some (t.length + 1) else depthBelow t id

/-- `ReaderState::next` (json-reader.h 146-161): locate the instance on the
active stack (throw `reader` when absent, before any mutation), drain every
composite above it, then read this composite's next value. -/
def nextR (s : RState) (id : Nat) : Except JErr (Bool × RState) :=
  match depthBelow s.activeR id with
  | none => .error .readerErr
  | some target => do
      let s1 ← drainTo (s.toks.length + 1) target s
      fReadNext s1

/-- `ReaderState::close` (json-reader.h 180-192): a no-op when the instance is
no longer active, otherwise drain through the instance itself. -/
def closeRS (s : RState) (id : Nat) : Except JErr RState :=
  match depthBelow s.activeR id with
  | none => .ok s
  | some target => drainTo (s.toks.length + 1) (target - 1) s

/-- `ReaderState::open` (json-reader.h 170-179), guarded by the
`Reader::arr()`/`obj()` kind check: hand the instance to a composite reader
handle when the reference is current (stamp matches) and not yet fetched. -/
def openR (s : RState) (stamp : Nat) (obj : Bool) : Except JErr RState :=
  if stamp ≠ s.nextStamp then .error .readerErr
  else
    match s.activeR with
    | [] => .error .readerErr
    | (id, inst) :: below =>
      if inst.object ≠ obj then .error .typeErr
      else if inst.avail then .ok { s with activeR := (id, { inst with avail := false }) :: below }
      else .error .readerErr

/-- Public reader operations: opening a composite value handle (which, in the
`ArrReader`/`ObjReader` constructor, immediately advances to the first
element, json-reader.h 427-429 and 541-543), advancing a composite handle,
and closing/dropping one. -/
inductive ROp
  | openOp (stamp : Nat) (obj : Bool)
  | nextOp (id : Nat)
  | closeROp (id : Nat)

/-- Exception-absorbing reader step.  The protocol errors (`reader`, `type`)
are thrown before any mutation; the internal `deserialize` errors never occur
on well-formed input (established by the invariant), so absorbing them to the
unchanged state is faithful on the theorems' domain. -/
def stepR (s : RState) (op : ROp) : RState :=
  match op with
  | .openOp stamp obj =>
      match openR s stamp obj with
      | .error _ => s
      | .ok s1 =>
          match s1.activeR with
          | [] => s1
          | (id, _) :: _ =>
              match nextR s1 id with
              | .ok (_, s2) => s2
              | .error _ => s
  | .nextOp id =>
      match nextR s id with
      | .ok (_, s') => s'
      | .error _ => s
  | .closeROp id =>
      match closeRS s id with
      | .ok s' => s'
      | .error _ => s

/-- `json::Read` (json-reader.h 592-599): `initValue` reads the root value and
invokes `checkDone` immediately when it was an unnested primitive
(json-reader.h 162-169). -/
def initR (ts : List LTok) : Except JErr RState := do
  let s ← fValueR { toks := ts, activeR := [], nextStamp := 0 }
  if s.activeR.isEmpty then
    match checkDoneT s.toks with
    | .ok _ => .ok s
    | .error e => .error e
  else .ok s

/-- Run a trace of reader operations. -/
def runR (s : RState) (ops : List ROp) : RState := ops.foldl stepR s

/-- Token grammar of the input.  `RTok none ts r` holds when `ts` starts with
exactly one complete JSON value, leaving `r`; `RTok (some (b, opened)) ts r`
holds when `ts` is a valid continuation of an open composite of kind `b`
whose first-child boundary has (`opened = true`) or has not yet been
consumed, down through its matching close bracket, leaving `r`. -/
inductive RTok : Option (Bool × Bool) → List LTok → List LTok → Prop
  | primTk (p : Prim) (r : List LTok) : RTok none (.lPrim p :: r) r
  | strTk (s : JStr) (r : List LTok) : RTok none (.lStr s :: r) r
  | beginTk (b : Bool) (ts r : List LTok) :
      RTok (some (b, false)) ts r → RTok none (.lBegin b :: ts) r
  | closeE (b : Bool) (r : List LTok) : RTok (some (b, false)) (.lClose b :: r) r
  | closeO (b : Bool) (r : List LTok) : RTok (some (b, true)) (.lClose b :: r) r
  | firstArr (ts m r : List LTok) :
      RTok none ts m → RTok (some (false, true)) m r → RTok (some (false, false)) ts r
  | firstObj (k : JStr) (ts m r : List LTok) :
      RTok none ts m → RTok (some (true, true)) m r →
      RTok (some (true, false)) (.lKey k :: ts) r
  | moreArr (ts m r : List LTok) :
      RTok none ts m → RTok (some (false, true)) m r →
      RTok (some (false, true)) (.lComma :: ts) r
  | moreObj (k : JStr) (ts m r : List LTok) :
      RTok none ts m → RTok (some (true, true)) m r →
      RTok (some (true, true)) (.lComma :: .lKey k :: ts) r

/-- The reader invariant: from the innermost active instance outwards, the
remaining input is the concatenation of each instance's continuation, and the
input ends exactly when the bottom instance closes. -/
inductive StackOK : List (Nat × RInst) → List LTok → Prop
  | nil : StackOK [] []
  | cons (id : Nat) (inst : RInst) (below : List (Nat × RInst)) (ts m : List LTok) :
      RTok (some (inst.object, inst.opened)) ts m → StackOK below m →
      StackOK ((id, inst) :: below) ts

/-! Theorems. -/

/-- Appending to an association list behind a missing key. -/
theorem objLookup_append_missing (entries : List (JStr × JValue)) (k : JStr) (v : JValue)
    (h : objLookup entries k = none) :
    objLookup (entries ++ [(k, v)]) k = some v := by
  induction entries with
  | nil => simp [objLookup]
  | cons p r ih =>
      obtain ⟨k', v'⟩ := p
      simp only [objLookup] at h
      by_cases hk : k' = k
      · simp [hk] at h
      · rw [List.cons_append]
        simp only [objLookup, if_neg hk] at h ⊢
        exact ih h

/-- Head unfolding of `markClosed`. -/
theorem markClosed_cons (i : Nat) (r : HRec) (t : List (Nat × HRec)) (a : Nat) :
    markClosed ((i, r) :: t) a =
      (if i = a then (i, ⟨HState.closed, r.stamp⟩) else (i, r)) :: markClosed t a := by
  by_cases h : i = a <;> simp [markClosed, h]

/-- Lookup after marking one handle closed. -/
theorem hlookup_markClosed (hl : List (Nat × HRec)) (a id : Nat) :
    hlookup (markClosed hl a) id =
      if id = a then (hlookup hl id).map (fun r => ⟨.closed, r.stamp⟩) else hlookup hl id := by
  induction hl with
  | nil => by_cases h : id = a <;> simp [markClosed, hlookup, h]
  | cons p t ih =>
      obtain ⟨i, r⟩ := p
      rw [markClosed_cons]
      by_cases hia : i = a
      · rw [if_pos hia]
        by_cases hid : id = i
        · subst hid
          subst hia
          simp [hlookup]
        · have h2 : ¬ i = id := fun h => hid h.symm
          simp only [hlookup, if_neg h2]
          exact ih
      · rw [if_neg hia]
        by_cases hid : id = i
        · subst hid
          have h3 : ¬ id = a := fun h => hia h
          simp [hlookup, h3]
        · have h2 : ¬ i = id := fun h => hid h.symm
          simp only [hlookup, if_neg h2]
          exact ih

/-- Lookup is unchanged by closing handles not looked up. -/
theorem hlookup_foldl_markClosed_notmem (pre : List Nat) :
    ∀ (hl : List (Nat × HRec)) (id : Nat), id ∉ pre →
      hlookup (pre.foldl markClosed hl) id = hlookup hl id := by
  induction pre with
  | nil => intro hl id _; rfl
  | cons a t ih =>
      intro hl id hmem
      rw [List.foldl_cons]
      rw [ih (markClosed hl a) id (fun hh => hmem (List.mem_cons_of_mem a hh))]
      rw [hlookup_markClosed]
      rw [if_neg (fun hh : id = a => hmem (by rw [hh]; exact List.mem_cons_self a t))]

/-- Closing a batch of handles marks each of them closed. -/
theorem hlookup_foldl_markClosed_mem (pre : List Nat) :
    ∀ (hl : List (Nat × HRec)) (id : Nat), id ∈ pre →
      hlookup (pre.foldl markClosed hl) id = (hlookup hl id).map (fun r => ⟨.closed, r.stamp⟩) := by
  induction pre with
  | nil => intro hl id h; cases h
  | cons a t ih =>
      intro hl id hmem
      rw [List.foldl_cons]
      by_cases hid : id ∈ t
      · rw [ih (markClosed hl a) id hid, hlookup_markClosed]
        by_cases hia : id = a
        · subst hia
          simp [Option.map_map]
          cases hlookup hl id <;> simp
        · rw [if_neg hia]
      · have hia : id = a := by
          rcases List.mem_cons.mp hmem with h | h
          · exact h
          · exact absurd h hid
        subst hia
        rw [hlookup_foldl_markClosed_notmem t _ id hid, hlookup_markClosed, if_pos rfl]

/-- Marking closed preserves the key list. -/
theorem markClosed_fst (hl : List (Nat × HRec)) (a : Nat) :
    (markClosed hl a).map Prod.fst = hl.map Prod.fst := by
  unfold markClosed
  rw [List.map_map]
  apply List.map_congr_left
  intro p _
  by_cases h : p.1 = a <;> simp [h]

/-- Key list preserved under a batch of closes. -/
theorem foldl_markClosed_fst (pre : List Nat) :
    ∀ hl : List (Nat × HRec), (pre.foldl markClosed hl).map Prod.fst = hl.map Prod.fst := by
  induction pre with
  | nil => intro hl; rfl
  | cons a t ih => intro hl; rw [List.foldl_cons, ih, markClosed_fst]

/-- Lookup past a fresh cons. -/
theorem hlookup_cons_ne (hl : List (Nat × HRec)) (i : Nat) (r : HRec) (id : Nat) (h : ¬ i = id) :
    hlookup ((i, r) :: hl) id = hlookup hl id := by
  simp [hlookup, h]

/-- The checker distributes over appending. -/
theorem prun_append (xs : List Token) : ∀ (c : PCfg) (ys : List Token),
    prun c (xs ++ ys) = (prun c xs).bind (fun c' => prun c' ys) := by
  induction xs with
  | nil => intro c ys; simp [prun]
  | cons t ts ih =>
      intro c ys
      rw [List.cons_append]
      rw [prun, prun]
      cases pstep c t with
      | none => simp
      | some c' => simp only [ih]

/-- Completion at a nonempty stack stays in the item phase. -/
theorem pComplete_ne_nil (stk : List Bool) (h : stk ≠ []) : pComplete stk = ⟨stk, .pitem⟩ := by
  cases stk with
  | nil => exact absurd rfl h
  | cons x xs => rfl

/-- One checker step, when the transition exists. -/
theorem prun_cons_some (c : PCfg) (t : Token) (ts : List Token) (c' : PCfg)
    (h : pstep c t = some c') : prun c (t :: ts) = prun c' ts := by
  rw [prun, h]

/-- Force-close end tokens walk the checker down to the surviving tail. -/
theorem prun_closeTokens (hl : List (Nat × HRec)) (pre : List Nat) :
    ∀ (tail : List Bool), tail ≠ [] →
      prun ⟨flagsOf hl pre ++ tail, .pitem⟩ (closeTokens hl pre) = some ⟨tail, .pitem⟩ := by
  induction pre with
  | nil => intro tail htail; rfl
  | cons a t ih =>
      intro tail htail
      rw [closeTokens, List.map_cons, flagsOf, List.map_cons]
      have hne : List.map (objFlag hl) t ++ tail ≠ [] := by simp [htail]
      rw [prun_cons_some _ _ _ ⟨List.map (objFlag hl) t ++ tail, .pitem⟩ (by
        simp [pstep, pComplete_ne_nil _ hne])]
      have h2 := ih tail htail
      rw [flagsOf, closeTokens] at h2
      exact h2

/-- The checker walks an array body emitted by `fWriteArray`. -/
theorem prun_emitArr (l : List JValue) (stk : List Bool)
    (ih : ∀ x ∈ l, ∀ st : List Bool, prun ⟨st, .pvalue⟩ (emitValue x) = some (pComplete st)) :
    prun ⟨false :: stk, .pitem⟩ (emitArr l) = some ⟨false :: stk, .pitem⟩ := by
  induction l with
  | nil => rfl
  | cons x xs ihl =>
      rw [emitArr, List.cons_append]
      rw [prun_cons_some ⟨false :: stk, .pitem⟩ Token.sepT _ ⟨false :: stk, .pvalue⟩ rfl]
      rw [prun_append]
      rw [ih x (List.mem_cons_self x xs) (false :: stk)]
      rw [show pComplete (false :: stk) = ⟨false :: stk, .pitem⟩ from rfl]
      rw [show (some (⟨false :: stk, .pitem⟩ : PCfg)).bind (fun c' => prun c' (emitArr xs)) =
          prun ⟨false :: stk, .pitem⟩ (emitArr xs) from rfl]
      exact ihl (fun y hy st => ih y (List.mem_cons_of_mem x hy) st)

/-- The checker walks an object body emitted by `fWriteObject`. -/
theorem prun_emitObj (l : List (JStr × JValue)) (stk : List Bool)
    (ih : ∀ p ∈ l, ∀ st : List Bool, prun ⟨st, .pvalue⟩ (emitValue p.2) = some (pComplete st)) :
    prun ⟨true :: stk, .pitem⟩ (emitObj l) = some ⟨true :: stk, .pitem⟩ := by
  induction l with
  | nil => rfl
  | cons p ps ihl =>
      rw [emitObj, List.cons_append]
      rw [prun_cons_some ⟨true :: stk, .pitem⟩ (Token.keyT p.1) _ ⟨true :: stk, .pvalue⟩ rfl]
      rw [prun_append]
      rw [ih p (List.mem_cons_self p ps) (true :: stk)]
      rw [show pComplete (true :: stk) = ⟨true :: stk, .pitem⟩ from rfl]
      rw [show (some (⟨true :: stk, .pitem⟩ : PCfg)).bind (fun c' => prun c' (emitObj ps)) =
          prun ⟨true :: stk, .pitem⟩ (emitObj ps) from rfl]
      exact ihl (fun q hq st => ih q (List.mem_cons_of_mem p hq) st)

/-- The checker accepts the token sequence of one written JSON-like value. -/
theorem prun_emitValue_aux : ∀ (n : Nat) (v : JValue), sizeOf v ≤ n → ∀ stk : List Bool,
    prun ⟨stk, .pvalue⟩ (emitValue v) = some (pComplete stk) := by
  intro n
  induction n with
  | zero =>
      intro v hv stk
      exact absurd hv (by cases v <;> simp)
  | succ n ih =>
      intro v hv stk
      cases v with
      | vnull => rfl
      | vbool b => rfl
      | vunum m => rfl
      | vinum i => rfl
      | vreal q => rfl
      | vstr s => rfl
      | varr l =>
          rw [emitValue]
          rw [prun_cons_some ⟨stk, .pvalue⟩ (Token.beginT false) _ ⟨false :: stk, .pitem⟩ rfl]
          rw [prun_append]
          have hx : ∀ x ∈ l, ∀ st : List Bool, prun ⟨st, .pvalue⟩ (emitValue x) = some (pComplete st) := by
            intro x hmem st
            apply ih x _ st
            have h1 : sizeOf x < sizeOf l := List.sizeOf_lt_of_mem hmem
            have h2 : sizeOf (JValue.varr l) ≤ n + 1 := hv
            simp only [JValue.varr.sizeOf_spec] at h2
            omega
          rw [prun_emitArr l stk hx]
          rfl
      | vobj l =>
          rw [emitValue]
          rw [prun_cons_some ⟨stk, .pvalue⟩ (Token.beginT true) _ ⟨true :: stk, .pitem⟩ rfl]
          rw [prun_append]
          have hx : ∀ p ∈ l, ∀ st : List Bool, prun ⟨st, .pvalue⟩ (emitValue p.2) = some (pComplete st) := by
            intro p hmem st
            apply ih p.2 _ st
            have h1 : sizeOf p < sizeOf l := List.sizeOf_lt_of_mem hmem
            have h2 : sizeOf (JValue.vobj l) ≤ n + 1 := hv
            simp only [JValue.vobj.sizeOf_spec] at h2
            obtain ⟨k, x⟩ := p
            simp only [Prod.mk.sizeOf_spec] at h1
            simp only at *
            omega
          rw [prun_emitObj l stk hx]
          rfl

/-- The checker accepts `emitValue v` from any value position. -/
theorem prun_emitValue (v : JValue) (stk : List Bool) :
    prun ⟨stk, .pvalue⟩ (emitValue v) = some (pComplete stk) :=
  prun_emitValue_aux (sizeOf v) v le_rfl stk

/-- Unfolding `fClose` at a found handle. -/
theorem fClose_eq (s : BState) (id : Nat) (r : HRec) (h : hlookup s.handles id = some r) :
    fClose s id = markDone (markClosedB (fCloseEmit s r) id) := by
  unfold fClose
  rw [h]

/-- `closeUpTo` when the target is already the top. -/
theorem closeUpTo_succ_self (f : Nat) (s : BState) (id : Nat) (tl : List Nat)
    (hact : s.active = id :: tl) :
    closeUpTo (f + 1) s id = s := by
  rw [closeUpTo, hact]
  exact if_pos rfl

/-- `closeUpTo` steps through a non-target top. -/
theorem closeUpTo_succ_cons (f : Nat) (s : BState) (id top : Nat) (tl : List Nat)
    (hact : s.active = top :: tl) (hne : ¬ top = id) :
    closeUpTo (f + 1) s id = closeUpTo f (fClose s top) id := by
  rw [closeUpTo, hact]
  exact if_neg hne

/-- Effect of `fClose` on a composite handle at the top of a stack with a
nonempty remainder: end token, pop, mark closed; `done` untouched. -/
theorem fClose_comp_spec (s : BState) (id : Nat) (r : HRec) (tl : List Nat)
    (hla : hlookup s.handles id = some r) (hc : r.hs = .arr ∨ r.hs = .obj)
    (hact : s.active = id :: tl) (htl : tl ≠ []) :
    fClose s id = { s with out := s.out ++ [Token.endT (r.hs = .obj)],
                           active := tl,
                           handles := markClosed s.handles id } := by
  rw [fClose_eq s id r hla]
  have hvne : r.hs ≠ .value := by rcases hc with h | h <;> simp [h]
  unfold fCloseEmit
  rw [if_pos hvne]
  unfold markClosedB markDone
  simp only [hact, List.tail_cons]
  rw [if_neg (by simpa using htl)]

/-- Effect of `fClose` on the current pending value handle. -/
theorem fClose_value_spec (s : BState) (id : Nat) (r : HRec)
    (hla : hlookup s.handles id = some r) (hv : r.hs = .value)
    (hst : r.stamp = s.valueStamp) (haw : s.awaitingValue = true) :
    fClose s id = markDone { s with awaitingValue := false,
                                    handles := markClosed s.handles id } := by
  rw [fClose_eq s id r hla]
  unfold fCloseEmit
  rw [if_neg (by simp [hv]), if_pos ⟨hst, haw⟩]
  rfl

/-- Close tokens are insensitive to marking an unrelated handle closed. -/
theorem closeTokens_markClosed_ne (hl : List (Nat × HRec)) (a : Nat) (t : List Nat)
    (h : a ∉ t) : closeTokens (markClosed hl a) t = closeTokens hl t := by
  unfold closeTokens
  apply List.map_congr_left
  intro p hp
  have hpa : ¬ p = a := fun hh => h (hh ▸ hp)
  unfold objFlag
  rw [hlookup_markClosed, if_neg hpa]

/-- Flags are insensitive to closing a disjoint batch of handles. -/
theorem flagsOf_foldl_markClosed (pre ids : List Nat) (hl : List (Nat × HRec))
    (h : ∀ i ∈ ids, i ∉ pre) :
    flagsOf (pre.foldl markClosed hl) ids = flagsOf hl ids := by
  unfold flagsOf
  apply List.map_congr_left
  intro i hi
  unfold objFlag
  rw [hlookup_foldl_markClosed_notmem pre hl i (h i hi)]

/-- The force-close loop closes exactly the prefix above the captured handle,
emitting each composite's end token in stack order. -/
theorem closeUpTo_spec : ∀ (pre : List Nat) (s : BState) (id : Nat) (rest : List Nat) (fuel : Nat),
    s.active = pre ++ id :: rest →
    (pre ++ id :: rest).Nodup →
    (∀ p ∈ pre, ∃ r, hlookup s.handles p = some r ∧ (r.hs = .arr ∨ r.hs = .obj)) →
    pre.length < fuel →
    closeUpTo fuel s id =
      { s with out := s.out ++ closeTokens s.handles pre,
               active := id :: rest,
               handles := pre.foldl markClosed s.handles } := by
  intro pre
  induction pre with
  | nil =>
      intro s id rest fuel hact hnd hcomp hfuel
      rw [List.nil_append] at hact
      cases fuel with
      | zero => omega
      | succ f =>
          rw [closeUpTo_succ_self f s id rest hact]
          simp [closeTokens, ← hact]
  | cons a t ih =>
      intro s id rest fuel hact hnd hcomp hfuel
      rw [List.cons_append] at hact
      have hndc := hnd
      rw [List.cons_append, List.nodup_cons] at hndc
      cases fuel with
      | zero => simp at hfuel
      | succ f =>
          have hne : ¬ a = id := by
            intro h
            subst h
            exact hndc.1 (List.mem_append_right t (List.mem_cons_self a rest))
          rw [closeUpTo_succ_cons f s id a (t ++ id :: rest) hact hne]
          obtain ⟨ra, hla, hca⟩ := hcomp a (List.mem_cons_self a t)
          have htl : t ++ id :: rest ≠ [] := by simp
          rw [fClose_comp_spec s a ra (t ++ id :: rest) hla hca hact htl]
          have hanott : a ∉ t := fun h => hndc.1 (List.mem_append_left _ h)
          have hcomp' : ∀ p ∈ t,
              ∃ r, hlookup (markClosed s.handles a) p = some r ∧ (r.hs = .arr ∨ r.hs = .obj) := by
            intro p hp
            obtain ⟨rp, hlp, hcp⟩ := hcomp p (List.mem_cons_of_mem a hp)
            refine ⟨rp, ?_, hcp⟩
            rw [hlookup_markClosed, if_neg (fun hpa : p = a => hanott (hpa ▸ hp))]
            exact hlp
          have hfuel' : t.length < f := by
            simp only [List.length_cons] at hfuel
            omega
          rw [ih { s with out := s.out ++ [Token.endT (ra.hs = .obj)],
                          active := t ++ id :: rest,
                          handles := markClosed s.handles a } id rest f rfl hndc.2 hcomp' hfuel']
          rw [closeTokens_markClosed_ne s.handles a t hanott]
          rw [show closeTokens s.handles (a :: t) =
              Token.endT (objFlag s.handles a) :: closeTokens s.handles t from rfl]
          rw [show objFlag s.handles a = decide (ra.hs = HState.obj) from by
            unfold objFlag; rw [hla]]
          simp [List.append_assoc]

/-- Unfolding `captureE` at a found handle. -/
theorem captureE_eq (s : BState) (id : Nat) (r : HRec) (h : hlookup s.handles id = some r) :
    captureE s id = captureRec s id r := by
  unfold captureE
  rw [h]

/-- Unfolding `stepE` at a found handle. -/
theorem stepE_eq (s : BState) (op : BOp) (r : HRec) (h : hlookup s.handles op.handle = some r) :
    stepE s op = if ¬ roleOk op r.hs then .ok s else stepRun s op r := by
  unfold stepE
  rw [h]

/-- Successful capture of a composite handle: the pending null (if any), then
the force-closes of the prefix above, leaving the handle on top. -/
theorem captureE_comp_spec (s : BState) (id : Nat) (r : HRec) (pre rest : List Nat)
    (hla : hlookup s.handles id = some r) (hc : r.hs = .arr ∨ r.hs = .obj)
    (hdone : s.done = false)
    (hact : s.active = pre ++ id :: rest)
    (hnd : (pre ++ id :: rest).Nodup)
    (hcomp : ∀ p ∈ pre, ∃ rr, hlookup s.handles p = some rr ∧ (rr.hs = .arr ∨ rr.hs = .obj)) :
    captureE s id = .ok
      { s with awaitingValue := false,
               out := (s.out ++ (if s.awaitingValue then [Token.primT .pNull] else []))
                 ++ closeTokens s.handles pre,
               active := id :: rest,
               handles := pre.foldl markClosed s.handles } := by
  have hvne : r.hs ≠ .value := by rcases hc with h | h <;> simp [h]
  have hclne : r.hs ≠ .closed := by rcases hc with h | h <;> simp [h]
  rw [captureE_eq s id r hla]
  unfold captureRec
  rw [if_neg (by
    rintro (hd | hcl | ⟨hval, _⟩)
    · rw [hdone] at hd; cases hd
    · exact hclne hcl
    · exact hvne hval)]
  rw [if_neg hvne]
  cases haw : s.awaitingValue with
  | true =>
      have hcn : captureNull s =
          { s with awaitingValue := false, out := s.out ++ [Token.primT .pNull] } := by
        unfold captureNull
        rw [if_pos haw]
      rw [hcn]
      rw [closeUpTo_spec pre
        { s with awaitingValue := false, out := s.out ++ [Token.primT .pNull] }
        id rest _ hact hnd hcomp (by
          show pre.length < s.active.length
          rw [hact]
          simp)]
      simp
  | false =>
      have hcn : captureNull s = s := by
        unfold captureNull
        rw [if_neg (by simp [haw])]
      rw [hcn]
      rw [closeUpTo_spec pre s id rest _ hact hnd hcomp (by rw [hact]; simp)]
      simp [haw]

/-- A found key is among the pool's keys. -/
theorem hlookup_mem_fst (hl : List (Nat × HRec)) (id : Nat) (r : HRec)
    (h : hlookup hl id = some r) : id ∈ hl.map Prod.fst := by
  induction hl with
  | nil => cases h
  | cons p t ih =>
      obtain ⟨i, rr⟩ := p
      simp only [hlookup] at h
      by_cases hi : i = id
      · subst hi; simp
      · rw [if_neg hi] at h
        simp [ih h]

/-- Under the invariant, every active id is below the allocation counter. -/
theorem BInv.active_lt {s : BState} (hinv : BInv s) : ∀ a ∈ s.active, a < s.nextId := by
  intro a ha
  obtain ⟨r, hl, _⟩ := hinv.active_comp a ha
  have hm := hlookup_mem_fst _ _ _ hl
  rw [List.mem_map] at hm
  obtain ⟨p, hp, hpe⟩ := hm
  have := hinv.ids_fresh p hp
  omega

/-- Under the invariant, a value handle is never on the active stack. -/
theorem BInv.value_not_active {s : BState} (hinv : BInv s) (id : Nat) (r : HRec)
    (hl : hlookup s.handles id = some r) (hv : r.hs = .value) : id ∉ s.active := by
  intro hmem
  obtain ⟨r', hl', hc'⟩ := hinv.active_comp id hmem
  rw [hl] at hl'
  cases hl'
  rcases hc' with h | h <;> rw [hv] at h <;> cases h

/-- The flags of the suffix of the active stack are untouched by a capture. -/
theorem flagsOf_capture (s : BState) (pre rest : List Nat) (id : Nat)
    (hnd : (pre ++ id :: rest).Nodup) :
    flagsOf (pre.foldl markClosed s.handles) (id :: rest) = flagsOf s.handles (id :: rest) := by
  apply flagsOf_foldl_markClosed
  intro i hi hip
  rw [List.nodup_append] at hnd
  exact hnd.2.2 hip hi

/-- The emitted capture tokens (pending null, then the force-close ends) drive
the checker from the state's configuration to the surviving stack in item
phase. -/
theorem capture_run_out (s : BState) (id : Nat) (pre rest : List Nat)
    (hrun : prun pInit s.out = some (bCfg s))
    (hdone : s.done = false)
    (hact : s.active = pre ++ id :: rest) :
    prun pInit ((s.out ++ (if s.awaitingValue then [Token.primT .pNull] else []))
        ++ closeTokens s.handles pre)
      = some ⟨flagsOf s.handles (id :: rest), .pitem⟩ := by
  have hflags : stackFlags s = flagsOf s.handles pre ++ flagsOf s.handles (id :: rest) := by
    unfold stackFlags flagsOf
    rw [hact, List.map_append]
  have htailne : flagsOf s.handles (id :: rest) ≠ [] := by simp [flagsOf]
  have hne : flagsOf s.handles pre ++ flagsOf s.handles (id :: rest) ≠ [] := by
    simp [flagsOf]
  by_cases haw : s.awaitingValue = true
  · rw [if_pos haw, prun_append, prun_append, hrun]
    unfold bCfg
    rw [if_neg (by simp [hdone]), if_pos haw]
    simp only [Option.some_bind]
    rw [show prun ⟨stackFlags s, Phase.pvalue⟩ [Token.primT Prim.pNull]
        = some (pComplete (stackFlags s)) from rfl]
    rw [hflags]
    rw [pComplete_ne_nil (flagsOf s.handles pre ++ flagsOf s.handles (id :: rest)) hne]
    simp only [Option.some_bind]
    exact prun_closeTokens s.handles pre _ htailne
  · rw [if_neg haw, List.append_nil, prun_append, hrun]
    unfold bCfg
    rw [if_neg (by simp [hdone]), if_neg haw]
    simp only [Option.some_bind]
    rw [hflags]
    exact prun_closeTokens s.handles pre _ htailne

/-- The state after a successful composite capture satisfies the invariant. -/
theorem BInv_capture_state (s : BState) (id : Nat) (r : HRec) (pre rest : List Nat)
    (hinv : BInv s)
    (hla : hlookup s.handles id = some r) (hc : r.hs = .arr ∨ r.hs = .obj)
    (hdone : s.done = false)
    (hact : s.active = pre ++ id :: rest) :
    BInv { s with awaitingValue := false,
                  out := (s.out ++ (if s.awaitingValue then [Token.primT .pNull] else []))
                    ++ closeTokens s.handles pre,
                  active := id :: rest,
                  handles := pre.foldl markClosed s.handles } := by
  have hnd : (pre ++ id :: rest).Nodup := hact ▸ hinv.nodup_active
  have hndsuf : (id :: rest).Nodup :=
    (List.sublist_append_right pre (id :: rest)).nodup hnd
  have hdisj : ∀ i ∈ (id :: rest), i ∉ pre := by
    intro i hi hip
    rw [List.nodup_append] at hnd
    exact hnd.2.2 hip hi
  have hflags : stackFlags s = flagsOf s.handles pre ++ flagsOf s.handles (id :: rest) := by
    unfold stackFlags flagsOf
    rw [hact, List.map_append]
  have htailne : flagsOf s.handles (id :: rest) ≠ [] := by
    simp [flagsOf]
  constructor
  · -- run_out
    refine Eq.trans (capture_run_out s id pre rest hinv.run_out hdone hact) ?_
    congr 1
    simp [bCfg, stackFlags, hdone, flagsOf_capture s pre rest id hnd]
  · -- active_comp
    intro i hi
    obtain ⟨ri, hli, hci⟩ := hinv.active_comp i (by rw [hact]; exact List.mem_append_right pre hi)
    refine ⟨ri, ?_, hci⟩
    show hlookup (pre.foldl markClosed s.handles) i = some ri
    rw [hlookup_foldl_markClosed_notmem pre _ i (hdisj i hi)]
    exact hli
  · -- comp_active
    intro i ri hli hci
    show i ∈ id :: rest
    by_cases hip : i ∈ pre
    · exfalso
      rw [show ({ s with
            awaitingValue := false,
            out := (s.out ++ if s.awaitingValue = true then [Token.primT .pNull] else [])
              ++ closeTokens s.handles pre,
            active := id :: rest,
            handles := pre.foldl markClosed s.handles } : BState).handles =
          pre.foldl markClosed s.handles from rfl] at hli
      rw [hlookup_foldl_markClosed_mem pre _ i hip] at hli
      cases hlk : hlookup s.handles i with
      | none => rw [hlk] at hli; cases hli
      | some rr =>
          rw [hlk] at hli
          cases hli
          rcases hci with h | h <;> cases h
    · rw [show ({ s with
            awaitingValue := false,
            out := (s.out ++ if s.awaitingValue = true then [Token.primT .pNull] else [])
              ++ closeTokens s.handles pre,
            active := id :: rest,
            handles := pre.foldl markClosed s.handles } : BState).handles =
          pre.foldl markClosed s.handles from rfl] at hli
      rw [hlookup_foldl_markClosed_notmem pre _ i hip] at hli
      have := hinv.comp_active i ri hli hci
      rw [hact] at this
      rcases List.mem_append.mp this with h | h
      · exact absurd h hip
      · exact h
  · -- nodup
    exact hndsuf
  · -- done_inv
    intro h
    rw [show ({ s with
          awaitingValue := false,
          out := (s.out ++ if s.awaitingValue = true then [Token.primT .pNull] else [])
            ++ closeTokens s.handles pre,
          active := id :: rest,
          handles := pre.foldl markClosed s.handles } : BState).done = s.done from rfl] at h
    rw [hdone] at h
    cases h
  · -- stack_nonempty
    intro _ _
    simp
  · -- ids_fresh
    intro p hp
    show p.1 < s.nextId
    have hkeys : p.1 ∈ (pre.foldl markClosed s.handles).map Prod.fst :=
      List.mem_map.mpr ⟨p, hp, rfl⟩
    rw [foldl_markClosed_fst] at hkeys
    rw [List.mem_map] at hkeys
    obtain ⟨q, hq, hqe⟩ := hkeys
    have := hinv.ids_fresh q hq
    omega

/-- Effect of `fClose` on a composite handle at the top of the stack, general
tail: end token, pop, mark closed, and the done check on the remainder. -/
theorem fClose_comp_spec' (s : BState) (id : Nat) (r : HRec) (tl : List Nat)
    (hla : hlookup s.handles id = some r) (hc : r.hs = .arr ∨ r.hs = .obj)
    (hact : s.active = id :: tl) :
    fClose s id = markDone { s with out := s.out ++ [Token.endT (r.hs = .obj)],
                                    active := tl,
                                    handles := markClosed s.handles id } := by
  rw [fClose_eq s id r hla]
  have hvne : r.hs ≠ .value := by rcases hc with h | h <;> simp [h]
  unfold fCloseEmit
  rw [if_pos hvne]
  unfold markClosedB
  simp only [hact, List.tail_cons]

/-- Flags are insensitive to closing a handle outside the list. -/
theorem flagsOf_markClosed_notmem (hl : List (Nat × HRec)) (id : Nat) (ids : List Nat)
    (h : id ∉ ids) : flagsOf (markClosed hl id) ids = flagsOf hl ids := by
  unfold flagsOf
  apply List.map_congr_left
  intro i hi
  unfold objFlag
  rw [hlookup_markClosed, if_neg (fun he : i = id => h (he ▸ hi))]

/-- Flags are insensitive to a freshly allocated handle. -/
theorem flagsOf_cons_fresh (hl : List (Nat × HRec)) (n : Nat) (rr : HRec) (ids : List Nat)
    (h : ∀ i ∈ ids, ¬ n = i) : flagsOf ((n, rr) :: hl) ids = flagsOf hl ids := by
  unfold flagsOf
  apply List.map_congr_left
  intro i hi
  unfold objFlag
  rw [show hlookup ((n, rr) :: hl) i = if n = i then some rr else hlookup hl i from rfl]
  rw [if_neg (h i hi)]

/-- The flag of a freshly allocated handle is its own record's flag. -/
theorem objFlag_cons_self (hl : List (Nat × HRec)) (n : Nat) (rr : HRec) :
    objFlag ((n, rr) :: hl) n = decide (rr.hs = .obj) := by
  unfold objFlag
  rw [show hlookup ((n, rr) :: hl) n = if n = n then some rr else hlookup hl n from rfl]
  rw [if_pos rfl]

/-- Appending tokens the checker loops on preserves the invariant (only the
output changes, and the configuration is unmoved). -/
theorem BInv_append_out (t : BState) (X : List Token) (hinv : BInv t)
    (hrun : prun (bCfg t) X = some (bCfg t)) :
    BInv { t with out := t.out ++ X } := by
  constructor
  · show prun pInit (t.out ++ X) = _
    rw [prun_append, hinv.run_out]
    simp only [Option.some_bind]
    rw [hrun]
    rfl
  · exact hinv.active_comp
  · exact hinv.comp_active
  · exact hinv.nodup_active
  · exact hinv.done_inv
  · exact hinv.stack_nonempty
  · exact hinv.ids_fresh

/-- A key-or-separator step followed by `nextValue` preserves the invariant:
the checker moves to the value phase exactly as `awaitingValue` is set, and
the fresh value handle does not disturb the composite bookkeeping. -/
theorem BInv_nextValue (t : BState) (X : List Token) (hinv : BInv t)
    (hdone : t.done = false)
    (hrun : prun (bCfg t) X = some ⟨stackFlags t, .pvalue⟩) :
    BInv (nextValue { t with out := t.out ++ X }) := by
  have hfresh : ∀ i ∈ t.active, ¬ t.nextId = i := by
    intro i hi he
    have := hinv.active_lt i hi
    omega
  constructor
  · show prun pInit (t.out ++ X) = _
    rw [prun_append, hinv.run_out]
    simp only [Option.some_bind]
    rw [hrun]
    congr 1
    simp [bCfg, nextValue, hdone, stackFlags]
    rw [flagsOf_cons_fresh t.handles t.nextId _ t.active hfresh]
  · intro i hi
    obtain ⟨ri, hli, hci⟩ := hinv.active_comp i hi
    refine ⟨ri, ?_, hci⟩
    show hlookup ((t.nextId, ⟨.value, t.valueStamp + 1⟩) :: t.handles) i = some ri
    rw [hlookup_cons_ne t.handles t.nextId _ i (hfresh i hi)]
    exact hli
  · intro i ri hli hci
    show i ∈ t.active
    rw [show (nextValue { t with out := t.out ++ X }).handles
        = (t.nextId, ⟨.value, t.valueStamp + 1⟩) :: t.handles from rfl] at hli
    by_cases hin : t.nextId = i
    · exfalso
      rw [show hlookup ((t.nextId, (⟨.value, t.valueStamp + 1⟩ : HRec)) :: t.handles) i
          = if t.nextId = i then some ⟨.value, t.valueStamp + 1⟩
            else hlookup t.handles i from rfl] at hli
      rw [if_pos hin] at hli
      cases hli
      rcases hci with h | h <;> cases h
    · rw [hlookup_cons_ne t.handles t.nextId _ i hin] at hli
      exact hinv.comp_active i ri hli hci
  · exact hinv.nodup_active
  · intro h
    rw [show (nextValue { t with out := t.out ++ X }).done = t.done from rfl] at h
    rw [hdone] at h
    cases h
  · intro _ h
    rw [show (nextValue { t with out := t.out ++ X }).awaitingValue = true from rfl] at h
    cases h
  · intro p hp
    show p.1 < t.nextId + 1
    rcases List.mem_cons.mp hp with h | h
    · rw [h]
      exact Nat.lt_succ_self _
    · have := hinv.ids_fresh p h
      omega

/-- A step to the value phase followed by `passCapture` preserves the
invariant: the begin token pushes the matching flag exactly as the fresh
composite handle is pushed on the active stack. -/
theorem BInv_passCapture (t : BState) (X : List Token) (b : Bool) (hinv : BInv t)
    (hdone : t.done = false) (haw : t.awaitingValue = false)
    (hrun : prun (bCfg t) X = some ⟨stackFlags t, .pvalue⟩) :
    BInv (passCapture { t with out := t.out ++ X } b) := by
  have hfresh : ∀ i ∈ t.active, ¬ t.nextId = i := by
    intro i hi he
    have := hinv.active_lt i hi
    omega
  have hflags : flagsOf ((t.nextId, (⟨if b then .obj else .arr, 0⟩ : HRec)) :: t.handles)
      (t.nextId :: t.active) = b :: flagsOf t.handles t.active := by
    rw [show flagsOf ((t.nextId, (⟨if b then .obj else .arr, 0⟩ : HRec)) :: t.handles)
          (t.nextId :: t.active)
        = objFlag ((t.nextId, (⟨if b then .obj else .arr, 0⟩ : HRec)) :: t.handles) t.nextId
          :: flagsOf ((t.nextId, (⟨if b then .obj else .arr, 0⟩ : HRec)) :: t.handles)
              t.active from rfl]
    rw [flagsOf_cons_fresh t.handles t.nextId _ t.active hfresh]
    rw [objFlag_cons_self]
    cases b <;> rfl
  constructor
  · show prun pInit ((t.out ++ X) ++ [Token.beginT b]) = _
    rw [prun_append, prun_append, hinv.run_out]
    simp only [Option.some_bind]
    rw [hrun]
    simp only [Option.some_bind]
    rw [prun_cons_some ⟨stackFlags t, .pvalue⟩ (Token.beginT b) [] ⟨b :: stackFlags t, .pitem⟩ rfl]
    show some (⟨b :: stackFlags t, .pitem⟩ : PCfg) = _
    congr 1
    simp [bCfg, passCapture, hdone, haw, stackFlags]
    rw [hflags]
  · intro i hi
    rw [show (passCapture { t with out := t.out ++ X } b).active
        = t.nextId :: t.active from rfl] at hi
    rcases List.mem_cons.mp hi with h | h
    · refine ⟨⟨if b then .obj else .arr, 0⟩, ?_, by cases b <;> simp⟩
      rw [h]
      show hlookup ((t.nextId, _) :: t.handles) t.nextId = _
      rw [show hlookup ((t.nextId, (⟨if b then .obj else .arr, 0⟩ : HRec)) :: t.handles) t.nextId
          = if t.nextId = t.nextId then some ⟨if b then .obj else .arr, 0⟩
            else hlookup t.handles t.nextId from rfl]
      rw [if_pos rfl]
    · obtain ⟨ri, hli, hci⟩ := hinv.active_comp i h
      refine ⟨ri, ?_, hci⟩
      show hlookup ((t.nextId, ⟨if b then .obj else .arr, 0⟩) :: t.handles) i = some ri
      rw [hlookup_cons_ne t.handles t.nextId _ i (hfresh i h)]
      exact hli
  · intro i ri hli hci
    show i ∈ t.nextId :: t.active
    rw [show (passCapture { t with out := t.out ++ X } b).handles
        = (t.nextId, ⟨if b then .obj else .arr, 0⟩) :: t.handles from rfl] at hli
    by_cases hin : t.nextId = i
    · rw [hin]
      exact List.mem_cons_self i t.active
    · rw [hlookup_cons_ne t.handles t.nextId _ i hin] at hli
      exact List.mem_cons_of_mem _ (hinv.comp_active i ri hli hci)
  · show (t.nextId :: t.active).Nodup
    rw [List.nodup_cons]
    exact ⟨fun hmem => (hfresh t.nextId hmem) rfl, hinv.nodup_active⟩
  · intro h
    rw [show (passCapture { t with out := t.out ++ X } b).done = t.done from rfl] at h
    rw [hdone] at h
    cases h
  · intro _ _
    show t.nextId :: t.active ≠ []
    simp
  · intro p hp
    show p.1 < t.nextId + 1
    rcases List.mem_cons.mp hp with h | h
    · rw [h]
      exact Nat.lt_succ_self _
    · have := hinv.ids_fresh p h
      omega

/-- `markDone` on an emptied stack sets the done flag. -/
theorem markDone_of_empty (u : BState) (h : u.active = []) :
    markDone u = { u with done := true } := by
  unfold markDone
  rw [h]
  rfl

/-- `markDone` on a non-empty stack is the identity. -/
theorem markDone_of_ne (u : BState) (h : u.active ≠ []) : markDone u = u := by
  unfold markDone
  cases hA : u.active with
  | nil => exact absurd hA h
  | cons a as => rfl

/-- Invariant transfer through `markDone` at an emptied stack. -/
theorem BInv_markDone_empty (u : BState) (h : u.active = [])
    (hbi : BInv { u with done := true }) : BInv (markDone u) := by
  rw [markDone_of_empty u h]
  exact hbi

/-- Invariant transfer through `markDone` at a non-empty stack. -/
theorem BInv_markDone_ne (u : BState) (h : u.active ≠ [])
    (hbi : BInv u) : BInv (markDone u) := by
  rw [markDone_of_ne u h]
  exact hbi

/-- Writing out the pending value and closing its handle preserves the
invariant: the checker completes the value at the current nesting exactly as
`awaitingValue` clears, and `markDone` fires exactly on the emptied stack. -/
theorem BInv_fClose_value (t : BState) (id : Nat) (r : HRec) (X : List Token) (hinv : BInv t)
    (hdone : t.done = false)
    (hl : hlookup t.handles id = some r) (hv : r.hs = .value)
    (hst : r.stamp = t.valueStamp) (haw : t.awaitingValue = true)
    (hrun : prun ⟨stackFlags t, .pvalue⟩ X = some (pComplete (stackFlags t))) :
    BInv (fClose { t with out := t.out ++ X } id) := by
  have hnotact : id ∉ t.active := hinv.value_not_active id r hl hv
  rw [fClose_value_spec { t with out := t.out ++ X } id r hl hv hst haw]
  cases hA : t.active with
  | nil =>
      refine BInv_markDone_empty _ rfl ?_
      constructor
      · show prun pInit (t.out ++ X) = _
        rw [prun_append, hinv.run_out]
        simp only [Option.some_bind]
        rw [show bCfg t = ⟨stackFlags t, Phase.pvalue⟩ from by simp [bCfg, hdone, haw]]
        rw [hrun]
        rw [show stackFlags t = [] from by simp [stackFlags, hA, flagsOf]]
        rfl
      · intro i hi
        exact absurd hi (List.not_mem_nil i)
      · intro i ri hli hci
        have hli' : hlookup (markClosed t.handles id) i = some ri := hli
        rw [hlookup_markClosed] at hli'
        by_cases hii : i = id
        · rw [if_pos hii, hii, hl] at hli'
          cases hli'
          rcases hci with h | h <;> cases h
        · rw [if_neg hii] at hli'
          have hmem := hinv.comp_active i ri hli' hci
          rw [hA] at hmem
          exact hmem
      · exact List.nodup_nil
      · intro _
        exact ⟨rfl, rfl⟩
      · intro h _
        cases h
      · intro p hp
        show p.1 < t.nextId
        have hk : p.1 ∈ (markClosed t.handles id).map Prod.fst :=
          List.mem_map.mpr ⟨p, hp, rfl⟩
        rw [markClosed_fst, List.mem_map] at hk
        obtain ⟨q, hq, hqe⟩ := hk
        have := hinv.ids_fresh q hq
        omega
  | cons a as =>
      refine BInv_markDone_ne _ (by simp) ?_
      have hnotact' : id ∉ a :: as := by
        rw [← hA]
        exact hnotact
      constructor
      · show prun pInit (t.out ++ X) = _
        rw [prun_append, hinv.run_out]
        simp only [Option.some_bind]
        rw [show bCfg t = ⟨stackFlags t, Phase.pvalue⟩ from by simp [bCfg, hdone, haw]]
        rw [hrun]
        have hsne : stackFlags t ≠ [] := by simp [stackFlags, hA, flagsOf]
        rw [pComplete_ne_nil _ hsne]
        congr 1
        simp [bCfg, hdone, stackFlags]
        rw [hA, flagsOf_markClosed_notmem t.handles id (a :: as) hnotact']
      · intro i hi
        have hi' : i ∈ t.active := by
          rw [hA]
          exact hi
        obtain ⟨ri, hli, hci⟩ := hinv.active_comp i hi'
        refine ⟨ri, ?_, hci⟩
        show hlookup (markClosed t.handles id) i = some ri
        rw [hlookup_markClosed, if_neg (fun he : i = id => hnotact (he ▸ hi'))]
        exact hli
      · intro i ri hli hci
        have hli' : hlookup (markClosed t.handles id) i = some ri := hli
        rw [hlookup_markClosed] at hli'
        by_cases hii : i = id
        · rw [if_pos hii, hii, hl] at hli'
          cases hli'
          rcases hci with h | h <;> cases h
        · rw [if_neg hii] at hli'
          have hmem := hinv.comp_active i ri hli' hci
          rw [hA] at hmem
          exact hmem
      · exact hA ▸ hinv.nodup_active
      · intro h
        have h' : t.done = true := h
        rw [hdone] at h'
        cases h'
      · intro _ _
        simp
      · intro p hp
        show p.1 < t.nextId
        have hk : p.1 ∈ (markClosed t.handles id).map Prod.fst :=
          List.mem_map.mpr ⟨p, hp, rfl⟩
        rw [markClosed_fst, List.mem_map] at hk
        obtain ⟨q, hq, hqe⟩ := hk
        have := hinv.ids_fresh q hq
        omega

/-- `value()`/`array()` on the current value handle preserves the invariant:
the begin token pushes the fresh composite's flag and the value handle is
closed without emitting, exactly as in `BuildValue::obj`/`arr`. -/
theorem BInv_value_compose (t : BState) (id : Nat) (r : HRec) (b : Bool) (hinv : BInv t)
    (hdone : t.done = false)
    (hl : hlookup t.handles id = some r) (hv : r.hs = .value)
    (hst : r.stamp = t.valueStamp) (haw : t.awaitingValue = true) :
    BInv (fClose (passCapture t b) id) := by
  have hnotact : id ∉ t.active := hinv.value_not_active id r hl hv
  have hidlt : id < t.nextId := by
    have hm := hlookup_mem_fst t.handles id r hl
    rw [List.mem_map] at hm
    obtain ⟨p, hp, hpe⟩ := hm
    have := hinv.ids_fresh p hp
    omega
  have hne : ¬ t.nextId = id := by omega
  have hfresh : ∀ i ∈ t.active, ¬ t.nextId = i := by
    intro i hi he
    have := hinv.active_lt i hi
    omega
  have hlid : hlookup (passCapture t b).handles id = some r := by
    show hlookup ((t.nextId, ⟨if b then .obj else .arr, 0⟩) :: t.handles) id = some r
    rw [hlookup_cons_ne t.handles t.nextId _ id hne]
    exact hl
  rw [fClose_value_spec (passCapture t b) id r hlid hv hst haw]
  refine BInv_markDone_ne _ (show t.nextId :: t.active ≠ [] from by simp) ?_
  have hflagsc : flagsOf
      (markClosed ((t.nextId, (⟨if b then .obj else .arr, 0⟩ : HRec)) :: t.handles) id)
      (t.nextId :: t.active) = b :: flagsOf t.handles t.active := by
    rw [flagsOf_markClosed_notmem _ id (t.nextId :: t.active) (by
      intro hmem
      rcases List.mem_cons.mp hmem with h | h
      · exact hne h.symm
      · exact hnotact h)]
    rw [show flagsOf ((t.nextId, (⟨if b then .obj else .arr, 0⟩ : HRec)) :: t.handles)
          (t.nextId :: t.active)
        = objFlag ((t.nextId, (⟨if b then .obj else .arr, 0⟩ : HRec)) :: t.handles) t.nextId
          :: flagsOf ((t.nextId, (⟨if b then .obj else .arr, 0⟩ : HRec)) :: t.handles)
              t.active from rfl]
    rw [flagsOf_cons_fresh t.handles t.nextId _ t.active hfresh]
    rw [objFlag_cons_self]
    cases b <;> rfl
  constructor
  · show prun pInit (t.out ++ [Token.beginT b]) = _
    rw [prun_append, hinv.run_out]
    simp only [Option.some_bind]
    rw [show bCfg t = ⟨stackFlags t, Phase.pvalue⟩ from by simp [bCfg, hdone, haw]]
    rw [prun_cons_some ⟨stackFlags t, .pvalue⟩ (Token.beginT b) [] ⟨b :: stackFlags t, .pitem⟩ rfl]
    show some (⟨b :: stackFlags t, .pitem⟩ : PCfg) = _
    congr 1
    simp [bCfg, hdone, stackFlags, passCapture]
    rw [hflagsc]
  · intro i hi
    rcases List.mem_cons.mp (show i ∈ t.nextId :: t.active from hi) with h | h
    · refine ⟨⟨if b then .obj else .arr, 0⟩, ?_, by cases b <;> simp⟩
      rw [h]
      show hlookup
        (markClosed ((t.nextId, (⟨if b then .obj else .arr, 0⟩ : HRec)) :: t.handles) id)
        t.nextId = _
      rw [hlookup_markClosed, if_neg hne]
      rw [show hlookup ((t.nextId, (⟨if b then .obj else .arr, 0⟩ : HRec)) :: t.handles) t.nextId
          = if t.nextId = t.nextId then some ⟨if b then .obj else .arr, 0⟩
            else hlookup t.handles t.nextId from rfl]
      rw [if_pos rfl]
    · obtain ⟨ri, hli, hci⟩ := hinv.active_comp i h
      refine ⟨ri, ?_, hci⟩
      show hlookup
        (markClosed ((t.nextId, (⟨if b then .obj else .arr, 0⟩ : HRec)) :: t.handles) id)
        i = some ri
      rw [hlookup_markClosed, if_neg (fun he : i = id => hnotact (he ▸ h))]
      rw [hlookup_cons_ne t.handles t.nextId _ i (hfresh i h)]
      exact hli
  · intro i ri hli hci
    show i ∈ t.nextId :: t.active
    have hli' : hlookup
        (markClosed ((t.nextId, (⟨if b then .obj else .arr, 0⟩ : HRec)) :: t.handles) id)
        i = some ri := hli
    rw [hlookup_markClosed] at hli'
    by_cases hii : i = id
    · rw [if_pos hii, hii] at hli'
      rw [hlookup_cons_ne t.handles t.nextId _ id hne, hl] at hli'
      cases hli'
      rcases hci with h | h <;> cases h
    · rw [if_neg hii] at hli'
      by_cases hin : t.nextId = i
      · rw [hin]
        exact List.mem_cons_self i t.active
      · rw [hlookup_cons_ne t.handles t.nextId _ i hin] at hli'
        exact List.mem_cons_of_mem _ (hinv.comp_active i ri hli' hci)
  · show (t.nextId :: t.active).Nodup
    rw [List.nodup_cons]
    exact ⟨fun hmem => hfresh t.nextId hmem rfl, hinv.nodup_active⟩
  · intro h
    have h' : t.done = true := h
    rw [hdone] at h'
    cases h'
  · intro _ _
    show t.nextId :: t.active ≠ []
    simp
  · intro p hp
    show p.1 < t.nextId + 1
    have hk : p.1 ∈ (markClosed
        ((t.nextId, (⟨if b then .obj else .arr, 0⟩ : HRec)) :: t.handles) id).map Prod.fst :=
      List.mem_map.mpr ⟨p, hp, rfl⟩
    rw [markClosed_fst] at hk
    rw [show ((t.nextId, (⟨if b then .obj else .arr, 0⟩ : HRec)) :: t.handles).map Prod.fst
        = t.nextId :: t.handles.map Prod.fst from rfl] at hk
    rcases List.mem_cons.mp hk with h | h
    · omega
    · rw [List.mem_map] at h
      obtain ⟨q, hq, hqe⟩ := h
      have := hinv.ids_fresh q hq
      omega

/-- A successful capture entails the builder was not done. -/
theorem captureE_ok_not_done (s : BState) (id : Nat) (r : HRec) (s1 : BState)
    (hl : hlookup s.handles id = some r) (hcap : captureE s id = .ok s1) :
    s.done = false := by
  rw [captureE_eq s id r hl] at hcap
  unfold captureRec at hcap
  by_cases herr : (s.done = true) ∨ r.hs = HState.closed ∨
      (r.hs = HState.value ∧ (r.stamp ≠ s.valueStamp ∨ s.awaitingValue = false))
  · rw [if_pos herr] at hcap
    cases hcap
  · rw [not_or] at herr
    simpa using herr.1

/-- A successful capture entails the handle was not closed. -/
theorem captureE_ok_not_closed (s : BState) (id : Nat) (r : HRec) (s1 : BState)
    (hl : hlookup s.handles id = some r) (hcap : captureE s id = .ok s1) :
    r.hs ≠ .closed := by
  intro hq
  rw [captureE_eq s id r hl] at hcap
  unfold captureRec at hcap
  rw [if_pos (Or.inr (Or.inl hq))] at hcap
  cases hcap

/-- A successful capture of a current value handle entails the stamp matched
and the value was still awaited, and the state is unchanged. -/
theorem captureE_ok_value (s : BState) (id : Nat) (r : HRec) (s1 : BState)
    (hl : hlookup s.handles id = some r) (hv : r.hs = .value)
    (hcap : captureE s id = .ok s1) :
    s1 = s ∧ r.stamp = s.valueStamp ∧ s.awaitingValue = true := by
  rw [captureE_eq s id r hl] at hcap
  unfold captureRec at hcap
  by_cases herr : (s.done = true) ∨ r.hs = HState.closed ∨
      (r.hs = HState.value ∧ (r.stamp ≠ s.valueStamp ∨ s.awaitingValue = false))
  · rw [if_pos herr] at hcap
    cases hcap
  · rw [if_neg herr, if_pos hv] at hcap
    injection hcap with h1
    refine ⟨h1.symm, ?_, ?_⟩
    · by_contra hq
      exact herr (Or.inr (Or.inr ⟨hv, Or.inl hq⟩))
    · by_contra hq
      exact herr (Or.inr (Or.inr ⟨hv, Or.inr (by simpa using hq)⟩))

/-- Closing the composite handle at the top of the stack preserves the
invariant: the end token pops the matching checker flag, and `markDone`
fires exactly when the root composite closes. -/
theorem BInv_close_top (t : BState) (id : Nat) (r : HRec) (rest : List Nat) (hinv : BInv t)
    (hdone : t.done = false) (haw : t.awaitingValue = false)
    (hl : hlookup t.handles id = some r) (hc : r.hs = .arr ∨ r.hs = .obj)
    (hact : t.active = id :: rest) :
    BInv (fClose t id) := by
  rw [fClose_comp_spec' t id r rest hl hc hact]
  have hnd : (id :: rest).Nodup := hact ▸ hinv.nodup_active
  have hidrest : id ∉ rest := (List.nodup_cons.mp hnd).1
  have hflags : stackFlags t = decide (r.hs = HState.obj) :: flagsOf t.handles rest := by
    unfold stackFlags
    rw [hact]
    rw [show flagsOf t.handles (id :: rest)
        = objFlag t.handles id :: flagsOf t.handles rest from rfl]
    congr 1
    unfold objFlag
    rw [hl]
  have hstepEnd : pstep ⟨decide (r.hs = HState.obj) :: flagsOf t.handles rest, .pitem⟩
      (Token.endT (decide (r.hs = HState.obj)))
      = some (pComplete (flagsOf t.handles rest)) := by
    show (if decide (r.hs = HState.obj) = decide (r.hs = HState.obj)
        then some (pComplete (flagsOf t.handles rest)) else none) = _
    rw [if_pos rfl]
  cases rest with
  | nil =>
      refine BInv_markDone_empty _ rfl ?_
      constructor
      · show prun pInit (t.out ++ [Token.endT (r.hs = HState.obj)]) = _
        rw [prun_append, hinv.run_out]
        simp only [Option.some_bind]
        rw [show bCfg t = ⟨stackFlags t, Phase.pitem⟩ from by simp [bCfg, hdone, haw]]
        rw [hflags]
        rw [prun_cons_some _ _ [] _ hstepEnd]
        rfl
      · intro i hi
        exact absurd hi (List.not_mem_nil i)
      · intro i ri hli hci
        have hli' : hlookup (markClosed t.handles id) i = some ri := hli
        rw [hlookup_markClosed] at hli'
        by_cases hii : i = id
        · rw [if_pos hii, hii, hl] at hli'
          cases hli'
          rcases hci with h | h <;> cases h
        · rw [if_neg hii] at hli'
          have hmem := hinv.comp_active i ri hli' hci
          rw [hact] at hmem
          rcases List.mem_cons.mp hmem with h | h
          · exact absurd h hii
          · exact absurd h (List.not_mem_nil i)
      · exact List.nodup_nil
      · intro _
        exact ⟨rfl, haw⟩
      · intro h _
        cases h
      · intro p hp
        show p.1 < t.nextId
        have hk : p.1 ∈ (markClosed t.handles id).map Prod.fst :=
          List.mem_map.mpr ⟨p, hp, rfl⟩
        rw [markClosed_fst, List.mem_map] at hk
        obtain ⟨q, hq, hqe⟩ := hk
        have := hinv.ids_fresh q hq
        omega
  | cons a as =>
      refine BInv_markDone_ne _ (by simp) ?_
      constructor
      · show prun pInit (t.out ++ [Token.endT (r.hs = HState.obj)]) = _
        rw [prun_append, hinv.run_out]
        simp only [Option.some_bind]
        rw [show bCfg t = ⟨stackFlags t, Phase.pitem⟩ from by simp [bCfg, hdone, haw]]
        rw [hflags]
        rw [prun_cons_some _ _ [] _ hstepEnd]
        rw [pComplete_ne_nil _ (by simp [flagsOf])]
        show some (⟨flagsOf t.handles (a :: as), Phase.pitem⟩ : PCfg) = _
        congr 1
        simp [bCfg, hdone, haw, stackFlags]
        rw [flagsOf_markClosed_notmem t.handles id (a :: as) hidrest]
      · intro i hi
        have hi' : i ∈ t.active := by
          rw [hact]
          exact List.mem_cons_of_mem id hi
        obtain ⟨ri, hli, hci⟩ := hinv.active_comp i hi'
        refine ⟨ri, ?_, hci⟩
        show hlookup (markClosed t.handles id) i = some ri
        rw [hlookup_markClosed, if_neg (fun he : i = id => hidrest (he ▸ hi))]
        exact hli
      · intro i ri hli hci
        have hli' : hlookup (markClosed t.handles id) i = some ri := hli
        rw [hlookup_markClosed] at hli'
        by_cases hii : i = id
        · rw [if_pos hii, hii, hl] at hli'
          cases hli'
          rcases hci with h | h <;> cases h
        · rw [if_neg hii] at hli'
          have hmem := hinv.comp_active i ri hli' hci
          rw [hact] at hmem
          rcases List.mem_cons.mp hmem with h | h
          · exact absurd h hii
          · exact h
      · exact (List.nodup_cons.mp hnd).2
      · intro h
        have h' : t.done = true := h
        rw [hdone] at h'
        cases h'
      · intro _ _
        simp
      · intro p hp
        show p.1 < t.nextId
        have hk : p.1 ∈ (markClosed t.handles id).map Prod.fst :=
          List.mem_map.mpr ⟨p, hp, rfl⟩
        rw [markClosed_fst, List.mem_map] at hk
        obtain ⟨q, hq, hqe⟩ := hk
        have := hinv.ids_fresh q hq
        omega

/-- Capturing a composite handle and issuing a member boundary token followed
by `nextValue` (object `addValue` / array `arrayValue`) preserves the
invariant. -/
theorem BInv_comp_nextValue (s : BState) (id : Nat) (r : HRec) (tok : Token)
    (hinv : BInv s) (hl : hlookup s.handles id = some r) (hc : r.hs = .arr ∨ r.hs = .obj)
    (hstep : ∀ fr : List Bool,
      pstep ⟨objFlag s.handles id :: fr, .pitem⟩ tok
        = some ⟨objFlag s.handles id :: fr, .pvalue⟩)
    (s1 : BState) (hcap : captureE s id = .ok s1) :
    BInv (nextValue { s1 with out := s1.out ++ [tok] }) := by
  have hdone : s.done = false := captureE_ok_not_done s id r s1 hl hcap
  have hmem : id ∈ s.active := hinv.comp_active id r hl hc
  obtain ⟨pre, rest, hact⟩ := List.append_of_mem hmem
  have hnd : (pre ++ id :: rest).Nodup := hact ▸ hinv.nodup_active
  have hcomp : ∀ p ∈ pre, ∃ rr, hlookup s.handles p = some rr
      ∧ (rr.hs = .arr ∨ rr.hs = .obj) := by
    intro p hp
    exact hinv.active_comp p (by rw [hact]; exact List.mem_append_left _ hp)
  rw [captureE_comp_spec s id r pre rest hl hc hdone hact hnd hcomp] at hcap
  injection hcap with h1
  subst h1
  refine BInv_nextValue _ [tok] (BInv_capture_state s id r pre rest hinv hl hc hdone hact)
    hdone ?_
  simp [bCfg, stackFlags, hdone]
  rw [flagsOf_capture s pre rest id hnd]
  rw [show flagsOf s.handles (id :: rest)
      = objFlag s.handles id :: flagsOf s.handles rest from rfl]
  rw [prun_cons_some _ tok [] _ (hstep (flagsOf s.handles rest))]
  rfl

/-- Capturing a composite handle, issuing a member boundary token, and
opening a nested composite via `passCapture` preserves the invariant. -/
theorem BInv_comp_passCapture (s : BState) (id : Nat) (r : HRec) (tok : Token) (b : Bool)
    (hinv : BInv s) (hl : hlookup s.handles id = some r) (hc : r.hs = .arr ∨ r.hs = .obj)
    (hstep : ∀ fr : List Bool,
      pstep ⟨objFlag s.handles id :: fr, .pitem⟩ tok
        = some ⟨objFlag s.handles id :: fr, .pvalue⟩)
    (s1 : BState) (hcap : captureE s id = .ok s1) :
    BInv (passCapture { s1 with out := s1.out ++ [tok] } b) := by
  have hdone : s.done = false := captureE_ok_not_done s id r s1 hl hcap
  have hmem : id ∈ s.active := hinv.comp_active id r hl hc
  obtain ⟨pre, rest, hact⟩ := List.append_of_mem hmem
  have hnd : (pre ++ id :: rest).Nodup := hact ▸ hinv.nodup_active
  have hcomp : ∀ p ∈ pre, ∃ rr, hlookup s.handles p = some rr
      ∧ (rr.hs = .arr ∨ rr.hs = .obj) := by
    intro p hp
    exact hinv.active_comp p (by rw [hact]; exact List.mem_append_left _ hp)
  rw [captureE_comp_spec s id r pre rest hl hc hdone hact hnd hcomp] at hcap
  injection hcap with h1
  subst h1
  refine BInv_passCapture _ [tok] b (BInv_capture_state s id r pre rest hinv hl hc hdone hact)
    hdone rfl ?_
  simp [bCfg, stackFlags, hdone]
  rw [flagsOf_capture s pre rest id hnd]
  rw [show flagsOf s.handles (id :: rest)
      = objFlag s.handles id :: flagsOf s.handles rest from rfl]
  rw [prun_cons_some _ tok [] _ (hstep (flagsOf s.handles rest))]
  rfl

/-- Associativity of token-list appends, with explicit positional binders. -/
theorem tok_append_assoc (xs ys zs : List Token) :
    (xs ++ ys) ++ zs = xs ++ (ys ++ zs) :=
  List.append_assoc xs ys zs

/-- Capturing a composite handle and writing a whole member (boundary token
then a complete value) preserves the invariant. -/
theorem BInv_comp_append (s : BState) (id : Nat) (r : HRec) (tok : Token) (v : JValue)
    (hinv : BInv s) (hl : hlookup s.handles id = some r) (hc : r.hs = .arr ∨ r.hs = .obj)
    (hstep : ∀ fr : List Bool,
      pstep ⟨objFlag s.handles id :: fr, .pitem⟩ tok
        = some ⟨objFlag s.handles id :: fr, .pvalue⟩)
    (s1 : BState) (hcap : captureE s id = .ok s1) :
    BInv { s1 with out := s1.out ++ [tok] ++ emitValue v } := by
  have hdone : s.done = false := captureE_ok_not_done s id r s1 hl hcap
  have hmem : id ∈ s.active := hinv.comp_active id r hl hc
  obtain ⟨pre, rest, hact⟩ := List.append_of_mem hmem
  have hnd : (pre ++ id :: rest).Nodup := hact ▸ hinv.nodup_active
  have hcomp : ∀ p ∈ pre, ∃ rr, hlookup s.handles p = some rr
      ∧ (rr.hs = .arr ∨ rr.hs = .obj) := by
    intro p hp
    exact hinv.active_comp p (by rw [hact]; exact List.mem_append_left _ hp)
  rw [captureE_comp_spec s id r pre rest hl hc hdone hact hnd hcomp] at hcap
  injection hcap with h1
  subst h1
  rw [tok_append_assoc _ [tok] (emitValue v)]
  refine BInv_append_out _ ([tok] ++ emitValue v)
    (BInv_capture_state s id r pre rest hinv hl hc hdone hact) ?_
  simp [bCfg, stackFlags, hdone]
  rw [flagsOf_capture s pre rest id hnd]
  rw [show flagsOf s.handles (id :: rest)
      = objFlag s.handles id :: flagsOf s.handles rest from rfl]
  rw [prun_cons_some _ tok _ _ (hstep (flagsOf s.handles rest))]
  rw [prun_emitValue v (objFlag s.handles id :: flagsOf s.handles rest)]
  rfl

/-- Capturing a composite handle and closing it (explicit `close` or the
destructor of an open composite) preserves the invariant. -/
theorem BInv_comp_close (s : BState) (id : Nat) (r : HRec)
    (hinv : BInv s) (hl : hlookup s.handles id = some r) (hc : r.hs = .arr ∨ r.hs = .obj)
    (s1 : BState) (hcap : captureE s id = .ok s1) :
    BInv (fClose s1 id) := by
  have hdone : s.done = false := captureE_ok_not_done s id r s1 hl hcap
  have hmem : id ∈ s.active := hinv.comp_active id r hl hc
  obtain ⟨pre, rest, hact⟩ := List.append_of_mem hmem
  have hnd : (pre ++ id :: rest).Nodup := hact ▸ hinv.nodup_active
  have hcomp : ∀ p ∈ pre, ∃ rr, hlookup s.handles p = some rr
      ∧ (rr.hs = .arr ∨ rr.hs = .obj) := by
    intro p hp
    exact hinv.active_comp p (by rw [hact]; exact List.mem_append_left _ hp)
  have hidpre : id ∉ pre := by
    rw [List.nodup_append] at hnd
    intro hp
    exact hnd.2.2 hp (List.mem_cons_self id rest)
  rw [captureE_comp_spec s id r pre rest hl hc hdone hact hnd hcomp] at hcap
  injection hcap with h1
  subst h1
  have hl1 : hlookup (pre.foldl markClosed s.handles) id = some r := by
    rw [hlookup_foldl_markClosed_notmem pre _ id hidpre]
    exact hl
  exact BInv_close_top _ id r rest (BInv_capture_state s id r pre rest hinv hl hc hdone hact)
    hdone rfl hl1 hc rfl

/-- The state issued by `json::Build` satisfies the invariant. -/
theorem BInv_initB : BInv initB := by
  constructor
  · rfl
  · intro i hi
    cases hi
  · intro i ri hli hci
    by_cases h0 : (0 : Nat) = i
    · rw [show hlookup initB.handles i = some ⟨HState.value, 1⟩ from by
        show (if (0 : Nat) = i then _ else _) = _
        rw [if_pos h0]] at hli
      cases hli
      rcases hci with h | h <;> cases h
    · rw [show hlookup initB.handles i = none from by
        show (if (0 : Nat) = i then _ else _) = _
        rw [if_neg h0]
        rfl] at hli
      cases hli
  · exact List.nodup_nil
  · intro h
    cases h
  · intro _ h
    cases h
  · intro p hp
    rcases List.mem_cons.mp hp with h | h
    · rw [h]
      show (0 : Nat) < 1
      omega
    · cases h

/-- Every public builder operation, successful or throwing, preserves the
invariant (`BuildInstance` member functions, json-builder.h 296-500). -/
theorem BInv_stepB (s : BState) (op : BOp) (hinv : BInv s) : BInv (stepB s op) := by
  unfold stepB
  cases hlk : hlookup s.handles op.handle with
  | none =>
      rw [show stepE s op = Except.ok s from by unfold stepE; rw [hlk]]
      exact hinv
  | some r =>
      rw [stepE_eq s op r hlk]
      by_cases hrole : roleOk op r.hs = true
      case neg =>
          rw [if_pos (by simpa using hrole)]
          exact hinv
      case pos =>
          rw [if_neg (by simp [hrole])]
          cases op with
          | valSet hid v =>
              simp only [BOp.handle] at hlk hrole ⊢
              cases hcap : captureE s hid with
              | error e =>
                  rw [show stepRun s (BOp.valSet hid v) r = Except.error e from by
                    unfold stepRun
                    simp only [BOp.handle]
                    rw [hcap]
                    rfl]
                  exact hinv
              | ok s1 =>
                  rw [show stepRun s (BOp.valSet hid v) r
                      = Except.ok (fClose { s1 with out := s1.out ++ emitValue v } hid) from by
                    unfold stepRun
                    simp only [BOp.handle]
                    rw [hcap]
                    rfl]
                  show BInv (fClose { s1 with out := s1.out ++ emitValue v } hid)
                  have hncl : r.hs ≠ .closed := captureE_ok_not_closed s hid r s1 hlk hcap
                  have hv : r.hs = .value := by
                    cases hq : r.hs
                    · exact absurd hq hncl
                    · rfl
                    · rw [hq] at hrole; simp [roleOk] at hrole
                    · rw [hq] at hrole; simp [roleOk] at hrole
                  obtain ⟨hs1, hst, haw⟩ := captureE_ok_value s hid r s1 hlk hv hcap
                  rw [hs1]
                  exact BInv_fClose_value s hid r (emitValue v) hinv
                    (captureE_ok_not_done s hid r s1 hlk hcap) hlk hv hst haw
                    (prun_emitValue v (stackFlags s))
          | valObj hid =>
              simp only [BOp.handle] at hlk hrole ⊢
              cases hcap : captureE s hid with
              | error e =>
                  rw [show stepRun s (BOp.valObj hid) r = Except.error e from by
                    unfold stepRun
                    simp only [BOp.handle]
                    rw [hcap]
                    rfl]
                  exact hinv
              | ok s1 =>
                  rw [show stepRun s (BOp.valObj hid) r
                      = Except.ok (fClose (passCapture s1 true) hid) from by
                    unfold stepRun
                    simp only [BOp.handle]
                    rw [hcap]
                    rfl]
                  show BInv (fClose (passCapture s1 true) hid)
                  have hncl : r.hs ≠ .closed := captureE_ok_not_closed s hid r s1 hlk hcap
                  have hv : r.hs = .value := by
                    cases hq : r.hs
                    · exact absurd hq hncl
                    · rfl
                    · rw [hq] at hrole; simp [roleOk] at hrole
                    · rw [hq] at hrole; simp [roleOk] at hrole
                  obtain ⟨hs1, hst, haw⟩ := captureE_ok_value s hid r s1 hlk hv hcap
                  rw [hs1]
                  exact BInv_value_compose s hid r true hinv
                    (captureE_ok_not_done s hid r s1 hlk hcap) hlk hv hst haw
          | valArr hid =>
              simp only [BOp.handle] at hlk hrole ⊢
              cases hcap : captureE s hid with
              | error e =>
                  rw [show stepRun s (BOp.valArr hid) r = Except.error e from by
                    unfold stepRun
                    simp only [BOp.handle]
                    rw [hcap]
                    rfl]
                  exact hinv
              | ok s1 =>
                  rw [show stepRun s (BOp.valArr hid) r
                      = Except.ok (fClose (passCapture s1 false) hid) from by
                    unfold stepRun
                    simp only [BOp.handle]
                    rw [hcap]
                    rfl]
                  show BInv (fClose (passCapture s1 false) hid)
                  have hncl : r.hs ≠ .closed := captureE_ok_not_closed s hid r s1 hlk hcap
                  have hv : r.hs = .value := by
                    cases hq : r.hs
                    · exact absurd hq hncl
                    · rfl
                    · rw [hq] at hrole; simp [roleOk] at hrole
                    · rw [hq] at hrole; simp [roleOk] at hrole
                  obtain ⟨hs1, hst, haw⟩ := captureE_ok_value s hid r s1 hlk hv hcap
                  rw [hs1]
                  exact BInv_value_compose s hid r false hinv
                    (captureE_ok_not_done s hid r s1 hlk hcap) hlk hv hst haw
          | objAddVal hid k =>
              simp only [BOp.handle] at hlk hrole ⊢
              cases hcap : captureE s hid with
              | error e =>
                  rw [show stepRun s (BOp.objAddVal hid k) r = Except.error e from by
                    unfold stepRun
                    simp only [BOp.handle]
                    rw [hcap]
                    rfl]
                  exact hinv
              | ok s1 =>
                  rw [show stepRun s (BOp.objAddVal hid k) r
                      = Except.ok (nextValue { s1 with out := s1.out ++ [Token.keyT k] }) from by
                    unfold stepRun
                    simp only [BOp.handle]
                    rw [hcap]
                    rfl]
                  show BInv (nextValue { s1 with out := s1.out ++ [Token.keyT k] })
                  have hncl : r.hs ≠ .closed := captureE_ok_not_closed s hid r s1 hlk hcap
                  have hso : r.hs = .obj := by
                    cases hq : r.hs
                    · exact absurd hq hncl
                    · rw [hq] at hrole; simp [roleOk] at hrole
                    · rw [hq] at hrole; simp [roleOk] at hrole
                    · rfl
                  have hflag : objFlag s.handles hid = true := by
                    simp [objFlag, hlk, hso]
                  exact BInv_comp_nextValue s hid r (Token.keyT k) hinv hlk (Or.inr hso)
                    (fun fr => by rw [hflag]; rfl) s1 hcap
          | objAddArr hid k =>
              simp only [BOp.handle] at hlk hrole ⊢
              cases hcap : captureE s hid with
              | error e =>
                  rw [show stepRun s (BOp.objAddArr hid k) r = Except.error e from by
                    unfold stepRun
                    simp only [BOp.handle]
                    rw [hcap]
                    rfl]
                  exact hinv
              | ok s1 =>
                  rw [show stepRun s (BOp.objAddArr hid k) r
                      = Except.ok (passCapture { s1 with out := s1.out ++ [Token.keyT k] } false)
                      from by
                    unfold stepRun
                    simp only [BOp.handle]
                    rw [hcap]
                    rfl]
                  show BInv (passCapture { s1 with out := s1.out ++ [Token.keyT k] } false)
                  have hncl : r.hs ≠ .closed := captureE_ok_not_closed s hid r s1 hlk hcap
                  have hso : r.hs = .obj := by
                    cases hq : r.hs
                    · exact absurd hq hncl
                    · rw [hq] at hrole; simp [roleOk] at hrole
                    · rw [hq] at hrole; simp [roleOk] at hrole
                    · rfl
                  have hflag : objFlag s.handles hid = true := by
                    simp [objFlag, hlk, hso]
                  exact BInv_comp_passCapture s hid r (Token.keyT k) false hinv hlk (Or.inr hso)
                    (fun fr => by rw [hflag]; rfl) s1 hcap
          | objAddObj hid k =>
              simp only [BOp.handle] at hlk hrole ⊢
              cases hcap : captureE s hid with
              | error e =>
                  rw [show stepRun s (BOp.objAddObj hid k) r = Except.error e from by
                    unfold stepRun
                    simp only [BOp.handle]
                    rw [hcap]
                    rfl]
                  exact hinv
              | ok s1 =>
                  rw [show stepRun s (BOp.objAddObj hid k) r
                      = Except.ok (passCapture { s1 with out := s1.out ++ [Token.keyT k] } true)
                      from by
                    unfold stepRun
                    simp only [BOp.handle]
                    rw [hcap]
                    rfl]
                  show BInv (passCapture { s1 with out := s1.out ++ [Token.keyT k] } true)
                  have hncl : r.hs ≠ .closed := captureE_ok_not_closed s hid r s1 hlk hcap
                  have hso : r.hs = .obj := by
                    cases hq : r.hs
                    · exact absurd hq hncl
                    · rw [hq] at hrole; simp [roleOk] at hrole
                    · rw [hq] at hrole; simp [roleOk] at hrole
                    · rfl
                  have hflag : objFlag s.handles hid = true := by
                    simp [objFlag, hlk, hso]
                  exact BInv_comp_passCapture s hid r (Token.keyT k) true hinv hlk (Or.inr hso)
                    (fun fr => by rw [hflag]; rfl) s1 hcap
          | objAdd hid k v =>
              simp only [BOp.handle] at hlk hrole ⊢
              cases hcap : captureE s hid with
              | error e =>
                  rw [show stepRun s (BOp.objAdd hid k v) r = Except.error e from by
                    unfold stepRun
                    simp only [BOp.handle]
                    rw [hcap]
                    rfl]
                  exact hinv
              | ok s1 =>
                  rw [show stepRun s (BOp.objAdd hid k v) r
                      = Except.ok { s1 with out := s1.out ++ [Token.keyT k] ++ emitValue v }
                      from by
                    unfold stepRun
                    simp only [BOp.handle]
                    rw [hcap]
                    rfl]
                  show BInv { s1 with out := s1.out ++ [Token.keyT k] ++ emitValue v }
                  have hncl : r.hs ≠ .closed := captureE_ok_not_closed s hid r s1 hlk hcap
                  have hso : r.hs = .obj := by
                    cases hq : r.hs
                    · exact absurd hq hncl
                    · rw [hq] at hrole; simp [roleOk] at hrole
                    · rw [hq] at hrole; simp [roleOk] at hrole
                    · rfl
                  have hflag : objFlag s.handles hid = true := by
                    simp [objFlag, hlk, hso]
                  exact BInv_comp_append s hid r (Token.keyT k) v hinv hlk (Or.inr hso)
                    (fun fr => by rw [hflag]; rfl) s1 hcap
          | arrPushVal hid =>
              simp only [BOp.handle] at hlk hrole ⊢
              cases hcap : captureE s hid with
              | error e =>
                  rw [show stepRun s (BOp.arrPushVal hid) r = Except.error e from by
                    unfold stepRun
                    simp only [BOp.handle]
                    rw [hcap]
                    rfl]
                  exact hinv
              | ok s1 =>
                  rw [show stepRun s (BOp.arrPushVal hid) r
                      = Except.ok (nextValue { s1 with out := s1.out ++ [Token.sepT] }) from by
                    unfold stepRun
                    simp only [BOp.handle]
                    rw [hcap]
                    rfl]
                  show BInv (nextValue { s1 with out := s1.out ++ [Token.sepT] })
                  have hncl : r.hs ≠ .closed := captureE_ok_not_closed s hid r s1 hlk hcap
                  have hsa : r.hs = .arr := by
                    cases hq : r.hs
                    · exact absurd hq hncl
                    · rw [hq] at hrole; simp [roleOk] at hrole
                    · rfl
                    · rw [hq] at hrole; simp [roleOk] at hrole
                  have hflag : objFlag s.handles hid = false := by
                    simp [objFlag, hlk, hsa]
                  exact BInv_comp_nextValue s hid r Token.sepT hinv hlk (Or.inl hsa)
                    (fun fr => by rw [hflag]; rfl) s1 hcap
          | arrPushArr hid =>
              simp only [BOp.handle] at hlk hrole ⊢
              cases hcap : captureE s hid with
              | error e =>
                  rw [show stepRun s (BOp.arrPushArr hid) r = Except.error e from by
                    unfold stepRun
                    simp only [BOp.handle]
                    rw [hcap]
                    rfl]
                  exact hinv
              | ok s1 =>
                  rw [show stepRun s (BOp.arrPushArr hid) r
                      = Except.ok (passCapture { s1 with out := s1.out ++ [Token.sepT] } false)
                      from by
                    unfold stepRun
                    simp only [BOp.handle]
                    rw [hcap]
                    rfl]
                  show BInv (passCapture { s1 with out := s1.out ++ [Token.sepT] } false)
                  have hncl : r.hs ≠ .closed := captureE_ok_not_closed s hid r s1 hlk hcap
                  have hsa : r.hs = .arr := by
                    cases hq : r.hs
                    · exact absurd hq hncl
                    · rw [hq] at hrole; simp [roleOk] at hrole
                    · rfl
                    · rw [hq] at hrole; simp [roleOk] at hrole
                  have hflag : objFlag s.handles hid = false := by
                    simp [objFlag, hlk, hsa]
                  exact BInv_comp_passCapture s hid r Token.sepT false hinv hlk (Or.inl hsa)
                    (fun fr => by rw [hflag]; rfl) s1 hcap
          | arrPushObj hid =>
              simp only [BOp.handle] at hlk hrole ⊢
              cases hcap : captureE s hid with
              | error e =>
                  rw [show stepRun s (BOp.arrPushObj hid) r = Except.error e from by
                    unfold stepRun
                    simp only [BOp.handle]
                    rw [hcap]
                    rfl]
                  exact hinv
              | ok s1 =>
                  rw [show stepRun s (BOp.arrPushObj hid) r
                      = Except.ok (passCapture { s1 with out := s1.out ++ [Token.sepT] } true)
                      from by
                    unfold stepRun
                    simp only [BOp.handle]
                    rw [hcap]
                    rfl]
                  show BInv (passCapture { s1 with out := s1.out ++ [Token.sepT] } true)
                  have hncl : r.hs ≠ .closed := captureE_ok_not_closed s hid r s1 hlk hcap
                  have hsa : r.hs = .arr := by
                    cases hq : r.hs
                    · exact absurd hq hncl
                    · rw [hq] at hrole; simp [roleOk] at hrole
                    · rfl
                    · rw [hq] at hrole; simp [roleOk] at hrole
                  have hflag : objFlag s.handles hid = false := by
                    simp [objFlag, hlk, hsa]
                  exact BInv_comp_passCapture s hid r Token.sepT true hinv hlk (Or.inl hsa)
                    (fun fr => by rw [hflag]; rfl) s1 hcap
          | arrPush hid v =>
              simp only [BOp.handle] at hlk hrole ⊢
              cases hcap : captureE s hid with
              | error e =>
                  rw [show stepRun s (BOp.arrPush hid v) r = Except.error e from by
                    unfold stepRun
                    simp only [BOp.handle]
                    rw [hcap]
                    rfl]
                  exact hinv
              | ok s1 =>
                  rw [show stepRun s (BOp.arrPush hid v) r
                      = Except.ok { s1 with out := s1.out ++ [Token.sepT] ++ emitValue v }
                      from by
                    unfold stepRun
                    simp only [BOp.handle]
                    rw [hcap]
                    rfl]
                  show BInv { s1 with out := s1.out ++ [Token.sepT] ++ emitValue v }
                  have hncl : r.hs ≠ .closed := captureE_ok_not_closed s hid r s1 hlk hcap
                  have hsa : r.hs = .arr := by
                    cases hq : r.hs
                    · exact absurd hq hncl
                    · rw [hq] at hrole; simp [roleOk] at hrole
                    · rfl
                    · rw [hq] at hrole; simp [roleOk] at hrole
                  have hflag : objFlag s.handles hid = false := by
                    simp [objFlag, hlk, hsa]
                  exact BInv_comp_append s hid r Token.sepT v hinv hlk (Or.inl hsa)
                    (fun fr => by rw [hflag]; rfl) s1 hcap
          | closeOp hid =>
              simp only [BOp.handle] at hlk hrole ⊢
              cases hcap : captureE s hid with
              | error e =>
                  rw [show stepRun s (BOp.closeOp hid) r = Except.error e from by
                    unfold stepRun
                    simp only [BOp.handle]
                    rw [hcap]
                    rfl]
                  exact hinv
              | ok s1 =>
                  rw [show stepRun s (BOp.closeOp hid) r = Except.ok (fClose s1 hid) from by
                    unfold stepRun
                    simp only [BOp.handle]
                    rw [hcap]
                    rfl]
                  show BInv (fClose s1 hid)
                  have hncl : r.hs ≠ .closed := captureE_ok_not_closed s hid r s1 hlk hcap
                  have hc : r.hs = HState.arr ∨ r.hs = HState.obj := by
                    cases hq : r.hs
                    · exact absurd hq hncl
                    · rw [hq] at hrole; simp [roleOk] at hrole
                    · exact Or.inl rfl
                    · exact Or.inr rfl
                  exact BInv_comp_close s hid r hinv hlk hc s1 hcap
          | dropOp hid =>
              simp only [BOp.handle] at hlk ⊢
              by_cases hcv : r.hs = HState.closed ∨ r.hs = HState.value
              · rw [show stepRun s (BOp.dropOp hid) r = Except.ok s from by
                  unfold stepRun
                  rw [if_pos hcv]]
                exact hinv
              · have hc : r.hs = HState.arr ∨ r.hs = HState.obj := by
                  cases hq : r.hs
                  · exact absurd (Or.inl hq) hcv
                  · exact absurd (Or.inr hq) hcv
                  · exact Or.inl rfl
                  · exact Or.inr rfl
                cases hcap : captureE s hid with
                | error e =>
                    rw [show stepRun s (BOp.dropOp hid) r = Except.error e from by
                      unfold stepRun
                      rw [if_neg hcv]
                      simp only [BOp.handle]
                      rw [hcap]
                      rfl]
                    exact hinv
                | ok s1 =>
                    rw [show stepRun s (BOp.dropOp hid) r = Except.ok (fClose s1 hid) from by
                      unfold stepRun
                      rw [if_neg hcv]
                      simp only [BOp.handle]
                      rw [hcap]
                      rfl]
                    show BInv (fClose s1 hid)
                    exact BInv_comp_close s hid r hinv hlk hc s1 hcap

/-- The invariant holds after any trace of builder operations. -/
theorem BInv_runB (ops : List BOp) : BInv (runB ops) := by
  unfold runB
  suffices h : ∀ t : BState, BInv t → BInv (ops.foldl stepB t) from h initB BInv_initB
  induction ops with
  | nil => intro t ht; exact ht
  | cons o os ih =>
      intro t ht
      exact ih (stepB t o) (BInv_stepB t o ht)

/-- C1, counterexample: a terminating trace in which every issued handle is
dropped need not emit one well-formed document — the destructor of the root
value handle with no committed value (`BuildInstance::fClose` on a plain
value, json-builder.h 113-123) emits nothing at all, so the sink holds zero
top-level values rather than exactly one. -/
theorem c1_counterexample :
    (runB [BOp.dropOp 0]).out = [] ∧ ¬ WFDoc (runB [BOp.dropOp 0]).out := by
  constructor
  · rfl
  · intro h
    cases h

/-- C1 (amended): whenever the builder completes — the shared done flag set
by `fClose` once the active stack empties (json-builder.h 128-129) — the
token sequence passed to the serializer is exactly one syntactically
well-formed JSON document: every begin is paired with exactly one matching
end at the same depth, keys and separators occur only in legal positions,
and exactly one top-level value is produced. -/
theorem c1_builder_wf (ops : List BOp) (h : (runB ops).done = true) :
    WFDoc (runB ops).out := by
  have hinv := BInv_runB ops
  have hr := hinv.run_out
  unfold WFDoc
  rw [hr]
  unfold bCfg
  rw [if_pos h]

/-- Witness for C1: the singleton trace committing `null` through the root
value handle reaches the done state, and its output is one well-formed
document. -/
theorem c1_witness :
    (runB [BOp.valSet 0 JValue.vnull]).done = true
      ∧ WFDoc (runB [BOp.valSet 0 JValue.vnull]).out :=
  ⟨by decide, c1_builder_wf [BOp.valSet 0 JValue.vnull] (by decide)⟩

/-- C8: every builder operation other than a destructor, invoked on a handle
whose state is closed, or on a value handle whose stamp mismatches the
current value stamp or for which awaiting-value is no longer set, throws the
builder-category error, and the failed call emits nothing (the state,
including the output, is unchanged). -/
theorem c8_closed_or_stale (s : BState) (op : BOp) (r : HRec)
    (hdrop : op.isDrop = false)
    (hl : hlookup s.handles op.handle = some r)
    (hrole : roleOk op r.hs = true)
    (hbad : r.hs = .closed ∨ (r.hs = .value ∧ (r.stamp ≠ s.valueStamp ∨ s.awaitingValue = false))) :
    stepE s op = .error .builderErr ∧ stepB s op = s := by
  have hcap : captureE s op.handle = .error .builderErr := by
    rw [captureE_eq s op.handle r hl]
    unfold captureRec
    rw [if_pos (Or.inr hbad)]
  have hst : stepE s op = .error .builderErr := by
    rw [stepE_eq s op r hl]
    rw [if_neg (by simp [hrole])]
    cases op <;>
      first
        | (unfold stepRun; rw [hcap]; rfl)
        | simp [BOp.isDrop] at hdrop
  exact ⟨hst, by unfold stepB; rw [hst]⟩

/-- C3: every operation invoked on a composite builder handle (object or
array; add/push in all forms, `close`, and the destructor) whose handle sits
at any position of the active stack first emits `null` if a pending value
handle is outstanding, then pops and closes every composite above it (each
emitting its end token, in stack order), and only then performs the operation
— the operation behaves exactly as if invoked on the captured state, whose
output extends the old output by precisely the pending `null` followed by the
close brackets.  Consequently, in every trace, a value handle that is created
and then dropped without `set`/`obj`/`arr` contributes nothing of its own
(its destructor leaves the state, output included, unchanged), so the `null`
emitted at the head of the next capture is what the document contains in that
position. -/
theorem c3_force_close (s : BState) (op : BOp) (r : HRec) (pre rest : List Nat)
    (hinv : BInv s)
    (hl : hlookup s.handles op.handle = some r)
    (hc : r.hs = .arr ∨ r.hs = .obj)
    (hrole : roleOk op r.hs = true)
    (hdone : s.done = false)
    (hact : s.active = pre ++ op.handle :: rest) :
    stepE s op = stepRun { s with
        awaitingValue := false,
        out := (s.out ++ (if s.awaitingValue then [Token.primT .pNull] else []))
          ++ closeTokens s.handles pre,
        active := op.handle :: rest,
        handles := pre.foldl markClosed s.handles } op r
    ∧ ∀ (t : BState) (hv : Nat) (rv : HRec),
        hlookup t.handles hv = some rv → rv.hs = .value →
        stepB t (BOp.dropOp hv) = t := by
  have hnd : (pre ++ op.handle :: rest).Nodup := hact ▸ hinv.nodup_active
  have hcomp : ∀ p ∈ pre, ∃ rr, hlookup s.handles p = some rr
      ∧ (rr.hs = .arr ∨ rr.hs = .obj) := by
    intro p hp
    exact hinv.active_comp p (by rw [hact]; exact List.mem_append_left _ hp)
  have hidpre : op.handle ∉ pre := by
    rw [List.nodup_append] at hnd
    intro hp
    exact hnd.2.2 hp (List.mem_cons_self op.handle rest)
  have hcap := captureE_comp_spec s op.handle r pre rest hl hc hdone hact hnd hcomp
  have hl1 : hlookup (pre.foldl markClosed s.handles) op.handle = some r := by
    rw [hlookup_foldl_markClosed_notmem pre _ op.handle hidpre]
    exact hl
  have hndsuf : (op.handle :: rest).Nodup :=
    (List.sublist_append_right pre (op.handle :: rest)).nodup hnd
  have hcap1 : captureE { s with
      awaitingValue := false,
      out := (s.out ++ (if s.awaitingValue then [Token.primT .pNull] else []))
        ++ closeTokens s.handles pre,
      active := op.handle :: rest,
      handles := pre.foldl markClosed s.handles } op.handle
    = .ok { s with
      awaitingValue := false,
      out := (s.out ++ (if s.awaitingValue then [Token.primT .pNull] else []))
        ++ closeTokens s.handles pre,
      active := op.handle :: rest,
      handles := pre.foldl markClosed s.handles } := by
    rw [captureE_comp_spec { s with
        awaitingValue := false,
        out := (s.out ++ (if s.awaitingValue then [Token.primT .pNull] else []))
          ++ closeTokens s.handles pre,
        active := op.handle :: rest,
        handles := pre.foldl markClosed s.handles } op.handle r [] rest hl1 hc hdone rfl
      hndsuf (by intro p hp; exact absurd hp (List.not_mem_nil p))]
    congr 1
    simp [closeTokens]
  constructor
  · rw [stepE_eq s op r hl, if_neg (by simp [hrole])]
    cases op with
    | valSet h v =>
        rcases hc with h' | h' <;> rw [h'] at hrole <;> simp [roleOk] at hrole
    | valObj h =>
        rcases hc with h' | h' <;> rw [h'] at hrole <;> simp [roleOk] at hrole
    | valArr h =>
        rcases hc with h' | h' <;> rw [h'] at hrole <;> simp [roleOk] at hrole
    | objAddVal h k =>
        unfold stepRun
        rw [hcap, hcap1]
    | objAddArr h k =>
        unfold stepRun
        rw [hcap, hcap1]
    | objAddObj h k =>
        unfold stepRun
        rw [hcap, hcap1]
    | objAdd h k v =>
        unfold stepRun
        rw [hcap, hcap1]
    | arrPushVal h =>
        unfold stepRun
        rw [hcap, hcap1]
    | arrPushArr h =>
        unfold stepRun
        rw [hcap, hcap1]
    | arrPushObj h =>
        unfold stepRun
        rw [hcap, hcap1]
    | arrPush h v =>
        unfold stepRun
        rw [hcap, hcap1]
    | closeOp h =>
        unfold stepRun
        rw [hcap, hcap1]
    | dropOp h =>
        unfold stepRun
        have hcv : ¬(r.hs = HState.closed ∨ r.hs = HState.value) := by
          rcases hc with h' | h' <;> rw [h'] <;> simp
        rw [if_neg hcv, if_neg hcv, hcap, hcap1]
  · intro t hv rv hlv hvv
    unfold stepB
    rw [show stepE t (BOp.dropOp hv) = Except.ok t from by
      rw [stepE_eq t (BOp.dropOp hv) rv hlv]
      rw [if_neg (by simp [roleOk])]
      unfold stepRun
      rw [if_pos (Or.inr hvv)]]

/-- C8 witness: a second `set` on the root value handle after the first `set`
closed it throws `builder` and emits nothing. -/
theorem c8_witness :
    stepE (runB [BOp.valSet 0 .vnull]) (BOp.valSet 0 .vnull) = .error .builderErr
    ∧ stepB (runB [BOp.valSet 0 .vnull]) (BOp.valSet 0 .vnull) = runB [BOp.valSet 0 .vnull] :=
  c8_closed_or_stale (runB [BOp.valSet 0 .vnull]) (BOp.valSet 0 .vnull) ⟨.closed, 1⟩
    rfl rfl rfl (Or.inl rfl)

/-- C3 witness: in the reachable state with an inner object (id 2) open above
an outer object (id 1), `addVal` on the outer — whose handle is not top-most —
behaves exactly as on the captured state, whose output first appends the inner
object's closing end token (no value was pending here, so the conditional
`null` list is empty); and dropping an unset value handle never changes any
state. -/
theorem c3_witness :
    stepE (runB [BOp.valObj 0, BOp.objAddObj 1 [107]]) (BOp.objAddVal 1 [108])
      = stepRun { runB [BOp.valObj 0, BOp.objAddObj 1 [107]] with
          awaitingValue := false,
          out := ((runB [BOp.valObj 0, BOp.objAddObj 1 [107]]).out
            ++ (if (runB [BOp.valObj 0, BOp.objAddObj 1 [107]]).awaitingValue
                then [Token.primT .pNull] else []))
            ++ closeTokens (runB [BOp.valObj 0, BOp.objAddObj 1 [107]]).handles [2],
          active := (BOp.objAddVal 1 [108]).handle :: [],
          handles := [2].foldl markClosed (runB [BOp.valObj 0, BOp.objAddObj 1 [107]]).handles }
        (BOp.objAddVal 1 [108]) ⟨.obj, 0⟩
    ∧ ∀ (t : BState) (hv : Nat) (rv : HRec),
        hlookup t.handles hv = some rv → rv.hs = .value →
        stepB t (BOp.dropOp hv) = t :=
  c3_force_close (runB [BOp.valObj 0, BOp.objAddObj 1 [107]]) (BOp.objAddVal 1 [108])
    ⟨.obj, 0⟩ [2] []
    (BInv_runB [BOp.valObj 0, BOp.objAddObj 1 [107]])
    (by decide) (Or.inr rfl) (by decide) (by decide) (by decide)

/-- C10: on both the DOM value and the viewer, `size()` of a string is the
length of the stored string and `empty()` is whether that length is zero;
null, boolean and the numeric kinds yield size 0 and empty true
unconditionally; arrays and objects report their element/pair counts (so only
the non-container kinds are unconditionally empty). -/
theorem c10_size_empty :
    (∀ s : JStr, (JValue.vstr s).size = s.length ∧ ((JValue.vstr s).empty = true ↔ s.length = 0))
    ∧ (JValue.vnull.size = 0 ∧ JValue.vnull.empty = true)
    ∧ (∀ b, (JValue.vbool b).size = 0 ∧ (JValue.vbool b).empty = true)
    ∧ (∀ n, (JValue.vunum n).size = 0 ∧ (JValue.vunum n).empty = true)
    ∧ (∀ i, (JValue.vinum i).size = 0 ∧ (JValue.vinum i).empty = true)
    ∧ (∀ q, (JValue.vreal q).size = 0 ∧ (JValue.vreal q).empty = true)
    ∧ (∀ l, (JValue.varr l).size = l.length ∧ ((JValue.varr l).empty = true ↔ l.length = 0))
    ∧ (∀ l, (JValue.vobj l).size = l.length ∧ ((JValue.vobj l).empty = true ↔ l.length = 0))
    ∧ (∀ (s : StrViewObject) (st : Option ViewState) (lk : Nat),
        (ViewerM.mk (.veStr s) st lk).size = s.length
        ∧ ((ViewerM.mk (.veStr s) st lk).empty = true ↔ s.length = 0))
    ∧ (∀ (st : ViewState) (s : StrViewObject), s.offset + s.length ≤ st.strings.length →
        ((st.strings.drop s.offset).take s.length).length = s.length)
    ∧ (∀ (a : ArrViewObject) (st : Option ViewState) (lk : Nat),
        (ViewerM.mk (.veArr a) st lk).size = a.size
        ∧ ((ViewerM.mk (.veArr a) st lk).empty = true ↔ a.size = 0))
    ∧ (∀ (o : ObjViewObject) (st : Option ViewState) (lk : Nat),
        (ViewerM.mk (.veObj o) st lk).size = o.keysAndValues / 2
        ∧ ((ViewerM.mk (.veObj o) st lk).empty = true ↔ o.keysAndValues = 0))
    ∧ (∀ (st : Option ViewState) (lk : Nat),
        (ViewerM.mk .veNull st lk).size = 0 ∧ (ViewerM.mk .veNull st lk).empty = true
        ∧ (∀ b, (ViewerM.mk (.veBool b) st lk).size = 0 ∧ (ViewerM.mk (.veBool b) st lk).empty = true)
        ∧ (∀ n, (ViewerM.mk (.veUNum n) st lk).size = 0 ∧ (ViewerM.mk (.veUNum n) st lk).empty = true)
        ∧ (∀ i, (ViewerM.mk (.veINum i) st lk).size = 0 ∧ (ViewerM.mk (.veINum i) st lk).empty = true)
        ∧ (∀ q, (ViewerM.mk (.veReal q) st lk).size = 0 ∧ (ViewerM.mk (.veReal q) st lk).empty = true)) := by
  refine ⟨fun s => ⟨rfl, ?_⟩, ⟨rfl, rfl⟩, fun b => ⟨rfl, rfl⟩, fun n => ⟨rfl, rfl⟩,
    fun i => ⟨rfl, rfl⟩, fun q => ⟨rfl, rfl⟩, fun l => ⟨rfl, ?_⟩, fun l => ⟨rfl, ?_⟩,
    fun s st lk => ⟨rfl, ?_⟩, fun st s h => ?_, fun a st lk => ⟨rfl, ?_⟩,
    fun o st lk => ⟨rfl, ?_⟩, fun st lk => ⟨rfl, rfl, fun b => ⟨rfl, rfl⟩,
      fun n => ⟨rfl, rfl⟩, fun i => ⟨rfl, rfl⟩, fun q => ⟨rfl, rfl⟩⟩⟩
  · simp [JValue.empty, List.isEmpty_iff, List.length_eq_zero]
  · simp [JValue.empty, List.isEmpty_iff, List.length_eq_zero]
  · simp [JValue.empty, List.isEmpty_iff, List.length_eq_zero]
  · simp [ViewerM.empty, List.length_eq_zero]
  · simp [List.length_take, List.length_drop]
    omega
  · simp [ViewerM.empty]
  · simp [ViewerM.empty]

/-- C10 witness: the stored-string conjunct evaluated at a concrete arena. -/
theorem c10_witness :
    ((((ViewState.mk [ViewEntry.veStr ⟨1, 2⟩] [97, 98, 99]).strings.drop 1).take 2)).length = 2 :=
  c10_size_empty.2.2.2.2.2.2.2.2.2.1 ⟨[ViewEntry.veStr ⟨1, 2⟩], [97, 98, 99]⟩ ⟨1, 2⟩ (by decide)

/-- C7 counterexample: the claim's own example fails; a DOM value holding the
real 3.0 coerced by the mutable `unum()` accessor holds 0, not 3, because
`fEnsureType(unumber)` implements no conversion from the `Real` alternative
and resets the slot to the default. -/
theorem c7_counterexample :
    (JValue.vreal 3).unumMut = (JValue.vunum 0, 0) ∧ (JValue.vreal 3).unumMut.2 ≠ 3 := by
  constructor
  · rfl
  · intro h
    simp [JValue.unumMut, fEnsureType] at h

/-- C7 (amended): the mutable numeric accessors' coercions preserve the stored
value between the two integer kinds whenever it is representable in the
requested kind, and from the integer kinds to real on the range a `double`
represents exactly; coercing a real-kind value to an integer kind however
resets the slot to the default 0 even when the real is an integer. -/
theorem c7_amended :
    (∀ n : Nat, n < 2 ^ 63 → (JValue.vunum n).inumMut = (JValue.vinum n, (n : Int)))
    ∧ (∀ i : Int, 0 ≤ i → i < 2 ^ 63 → (JValue.vinum i).unumMut = (JValue.vunum i.toNat, i.toNat))
    ∧ (∀ n : Nat, n ≤ 2 ^ 53 → (JValue.vunum n).realMut = (JValue.vreal n, (n : ℚ)))
    ∧ (∀ i : Int, i.natAbs ≤ 2 ^ 53 → (JValue.vinum i).realMut = (JValue.vreal i, (i : ℚ)))
    ∧ (∀ q : ℚ, (JValue.vreal q).unumMut = (JValue.vunum 0, 0))
    ∧ (∀ q : ℚ, (JValue.vreal q).inumMut = (JValue.vinum 0, 0)) := by
  refine ⟨fun n hn => ?_, fun i h0 hlt => ?_, fun n _ => rfl, fun i _ => rfl,
    fun q => rfl, fun q => rfl⟩
  · have hmod : n % U64MOD = n := Nat.mod_eq_of_lt (lt_trans hn (by norm_num [U64MOD]))
    have hv : i64ofNat n = (n : Int) := by
      unfold i64ofNat
      rw [hmod, if_pos hn]
    simp [JValue.inumMut, fEnsureType, hv]
  · have hpos : (0 : Int) ≤ i % (U64MOD : Int) := Int.emod_nonneg i (by norm_num [U64MOD])
    have hmod : i % (U64MOD : Int) = i := by
      apply Int.emod_eq_of_lt h0
      calc i < 2 ^ 63 := hlt
        _ ≤ (U64MOD : Int) := by norm_num [U64MOD]
    simp [JValue.unumMut, fEnsureType, u64ofInt, h0, hmod]

/-- C7 witness: uint 5 coerced by the mutable `inum()` holds 5, and int 5
coerced by the mutable `unum()` holds 5. -/
theorem c7_witness :
    (JValue.vunum 5).inumMut = (JValue.vinum 5, (5 : Int))
    ∧ (JValue.vinum 5).unumMut = (JValue.vunum 5, 5) := by
  constructor
  · have := c7_amended.1 5 (by norm_num)
    simpa using this
  · have := c7_amended.2.1 5 (by norm_num) (by norm_num)
    simpa using this

/-- C9: on a DOM value of object kind with key `k` missing, the read-only
`at(k)` returns the shared constant null without throwing (and, being const,
without modifying the object), the mutable `at(k)` inserts null under `k` and
the returned reference holds null, and the viewer's `at(k)` on a view object
returns the constant null viewer.  The arena hypotheses state that `k` is not
among the object's keys (which sit at the even entry offsets) and that the
per-handle cache index is even, as every reachable viewer maintains. -/
theorem c9_missing_key (entries : List (JStr × JValue)) (k : JStr)
    (hmiss : objLookup entries k = none)
    (st : ViewState) (obj : ObjViewObject) (lastKey : Nat)
    (heven : lastKey % 2 = 0)
    (hkeys : ∀ j, j < obj.keysAndValues → j % 2 = 0 → st.str (obj.offset + j) ≠ some k) :
    JValue.atConst (.vobj entries) k = .ok .vnull
    ∧ JValue.atMut (.vobj entries) k = (.vobj (entries ++ [(k, .vnull)]), .vnull)
    ∧ ViewerM.at ⟨.veObj obj, some st, lastKey⟩ k = .ok nullViewer := by
  refine ⟨?_, ?_, ?_⟩
  · simp [JValue.atConst, hmiss]
  · have hl := objLookup_append_missing entries k .vnull hmiss
    simp [JValue.atMut, fEnsureType, objIndex, hmiss, hl]
  · have hcache : ¬ (lastKey < obj.keysAndValues ∧ st.str (obj.offset + lastKey) = some k) := by
      rintro ⟨hlt, heq⟩
      exact hkeys lastKey hlt heven heq
    have hscan : viewScan k obj st = none := by
      unfold viewScan
      rw [List.find?_eq_none]
      intro j hj
      rw [List.mem_filter, List.mem_range] at hj
      obtain ⟨hjlt, hje⟩ := hj
      have hje2 : j % 2 = 0 := by simpa using hje
      have hne := hkeys j hjlt hje2
      simpa using hne
    simp [ViewerM.at, ViewObjLookup, hcache, hscan]

/-- C9 witness: a one-pair view object and a one-pair DOM object, looked up at
an absent key. -/
theorem c9_witness :
    JValue.atConst (.vobj [([97], .vbool true)]) [98] = .ok .vnull
    ∧ JValue.atMut (.vobj [([97], .vbool true)]) [98] =
        (.vobj ([([97], .vbool true)] ++ [([98], .vnull)]), .vnull)
    ∧ ViewerM.at ⟨.veObj ⟨1, 2⟩, some ⟨[.veObj ⟨1, 2⟩, .veStr ⟨0, 1⟩, .veNull], [97]⟩, 2⟩ [98] =
        .ok nullViewer :=
  c9_missing_key [([97], .vbool true)] [98] rfl
    ⟨[.veObj ⟨1, 2⟩, .veStr ⟨0, 1⟩, .veNull], [97]⟩ ⟨1, 2⟩ 2 (by decide)
    (by
      intro j hj hje
      interval_cases j
      · decide
      · simp at hje)

/-- C5: whenever `readNumber` consumes a grammatically valid JSON number, the
kind of the returned value (uint / int / real) is exactly the one determined
by the claimed rule: accepting state `inDigits`/`postDigits` with no minus
sign parses as unsigned 64-bit integer, with a minus sign as signed 64-bit
integer, and every other accepting state or an out-of-range integer parse
yields a floating-point real. -/
theorem c5_number_kind (input : List Nat) (nv : NumberValue) (rest : List Nat)
    (h : readNumber input = some (nv, rest)) :
    nv.kind = specNumberKind (numScan .preSign false input).1
      (numScan .preSign false input).2.1 (numScan .preSign false input).2.2.1 := by
  rcases hsc : numScan .preSign false input with ⟨state, neg, buf, rst⟩
  unfold readNumber at h
  rw [hsc] at h
  simp only at h
  by_cases hacc : state = NumState.preSign ∨ state = NumState.preDigits ∨
      state = NumState.preFraction ∨ state = NumState.preExpSign ∨ state = NumState.preExponent
  · rw [if_pos hacc] at h; cases h
  · rw [if_neg hacc] at h
    by_cases hint : state = NumState.inDigits ∨ state = NumState.postDigits
    · rw [if_pos hint] at h
      cases neg with
      | true =>
          rw [if_pos rfl] at h
          rcases hp : parseI64 buf with _ | i <;> rw [hp] at h <;>
            simp only [Option.some.injEq, Prod.mk.injEq] at h <;>
            rw [← h.1] <;>
            simp [specNumberKind, NumberValue.kind, hint, hp]
      | false =>
          rw [if_neg (by simp)] at h
          rcases hp : parseU64 buf with _ | n <;> rw [hp] at h <;>
            simp only [Option.some.injEq, Prod.mk.injEq] at h <;>
            rw [← h.1] <;>
            simp [specNumberKind, NumberValue.kind, hint, hp]
    · rw [if_neg hint] at h
      simp only [Option.some.injEq, Prod.mk.injEq] at h
      rw [← h.1]
      simp [specNumberKind, NumberValue.kind, hint, hacc]

/-- C5 witness: the number -12 is consumed in state `inDigits` with the sign
seen and classifies as a signed integer. -/
theorem c5_witness :
    (NumberValue.nvINum (-12)).kind =
      specNumberKind (numScan .preSign false [45, 49, 50]).1
        (numScan .preSign false [45, 49, 50]).2.1
        (numScan .preSign false [45, 49, 50]).2.2.1 :=
  c5_number_kind [45, 49, 50] (.nvINum (-12)) [] (by decide)

/-- C6 code-bug evidence: the string writer of `json::Serialize`/`ToString`
emits the newline escape `\n` (codepoints 92, 110) for a carriage return
U+000D instead of the claimed `\r` escape, because the `\r` branch of
json-serialize.h maps the character to the letter `n`; the sibling streaming
serializer `fString` (json-serializer.h) emits `\r` for the same input under
every printability classifier. -/
theorem c6_cr_escape :
    fWriteString [13] = [34, 92, 110, 34]
    ∧ (∀ isPrint : Nat → Bool, fString isPrint [13] = [34, 92, 114, 34])
    ∧ fWriteString [13] ≠ [34, 92, 114, 34] := by
  refine ⟨by decide, fun isPrint => rfl, by decide⟩

/-- C2 code-bug evidence: round-tripping the DOM string value consisting of
one carriage return through `ToString` and `Deserialize` yields the string
consisting of one newline, which is not equal to the original under the DOM
equality. -/
theorem c2_roundtrip_cr :
    toStringOfStr [13] = [34, 92, 110, 34]
    ∧ deserializeStr (toStringOfStr [13]) = some (.vstr [10])
    ∧ valueEq (.vstr [10]) (.vstr [13]) = false :=
  ⟨rfl, rfl, rfl⟩

/-- Inversion for the empty reader stack: the input is exhausted. -/
theorem StackOK_nil_inv (ts : List LTok) (h : StackOK [] ts) : ts = [] := by
  cases h
  rfl

/-- Inversion for a non-empty reader stack. -/
theorem StackOK_cons_inv (id : Nat) (inst : RInst) (below : List (Nat × RInst))
    (ts : List LTok) (h : StackOK ((id, inst) :: below) ts) :
    ∃ m, RTok (some (inst.object, inst.opened)) ts m ∧ StackOK below m := by
  cases h with
  | cons _ _ _ _ m hrt hb => exact ⟨m, hrt, hb⟩

/-- Reading one upcoming value with `fValue` succeeds on a grammatical value,
consumes at least one token, and re-establishes the stack invariant. -/
theorem fValueR_stack (s : RState) (ts m : List LTok)
    (hts : s.toks = ts) (hv : RTok none ts m)
    (hrest : StackOK s.activeR m) :
    ∃ s3, fValueR s = .ok s3 ∧ StackOK s3.activeR s3.toks
      ∧ s3.toks.length < s.toks.length := by
  cases hv with
  | primTk p =>
      refine ⟨{ s with toks := m }, ?_, hrest, ?_⟩
      · unfold fValueR
        rw [hts]
      · rw [hts]
        simp
  | strTk q =>
      refine ⟨{ s with toks := m }, ?_, hrest, ?_⟩
      · unfold fValueR
        rw [hts]
      · rw [hts]
        simp
  | beginTk b ts1 =>
      rename_i hsub
      refine ⟨{ toks := ts1,
                activeR := (s.nextStamp + 1, ⟨b, false, true⟩) :: s.activeR,
                nextStamp := s.nextStamp + 1 }, ?_, ?_, ?_⟩
      · unfold fValueR
        rw [hts]
      · exact StackOK.cons (s.nextStamp + 1) ⟨b, false, true⟩ s.activeR ts1 m hsub hrest
      · rw [hts]
        simp

/-- Unfolding `fReadNextValue` at a known top instance. -/
theorem fReadNext_eq (s : RState) (id : Nat) (inst : RInst) (below : List (Nat × RInst))
    (h : s.activeR = (id, inst) :: below) :
    fReadNext s =
      match (if inst.opened then closeElseSeparatorT inst.object s.toks
             else .ok (checkIsEmptyT inst.object s.toks) : Except JErr (Bool × List LTok)) with
      | .error e => .error e
      | .ok (true, r) =>
          let s1 : RState := { toks := r, activeR := below, nextStamp := s.nextStamp + 1 }
          if below.isEmpty then
            match checkDoneT r with
            | .ok _ => .ok (false, s1)
            | .error e => .error e
          else .ok (false, s1)
      | .ok (false, r) =>
          let s2 : RState :=
            { s with toks := r, activeR := (id, { inst with opened := true }) :: below }
          if inst.object then
            match s2.toks with
            | .lKey _ :: r2 => (fValueR { s2 with toks := r2 }).map (fun s3 => (true, s3))
            | _ => .error .deserializeErr
          else (fValueR s2).map (fun s3 => (true, s3)) := by
  unfold fReadNext
  rw [h]

/-- `fReadNextValue` on an invariant-satisfying state with a non-empty stack
succeeds, consumes at least one token, and re-establishes the invariant; the
end-of-document check runs exactly when the popped instance was the last. -/
theorem fReadNext_ok (s : RState) (id : Nat) (inst : RInst) (below : List (Nat × RInst))
    (hact : s.activeR = (id, inst) :: below)
    (hs : StackOK s.activeR s.toks) :
    ∃ b s', fReadNext s = .ok (b, s') ∧ StackOK s'.activeR s'.toks
      ∧ s'.toks.length < s.toks.length := by
  rw [hact] at hs
  obtain ⟨m, hrt0, hbelow⟩ := StackOK_cons_inv id inst below s.toks hs
  obtain ⟨o, op, av⟩ := inst
  have hrt : RTok (some (o, op)) s.toks m := hrt0
  clear hrt0 hs
  generalize hT : s.toks = T at hrt
  cases hrt with
  | closeE =>
      cases hB : below with
      | nil =>
          have hm : m = [] := StackOK_nil_inv m (hB ▸ hbelow)
          subst hm
          refine ⟨false, { toks := [], activeR := [], nextStamp := s.nextStamp + 1 },
            ?_, StackOK.nil, ?_⟩
          · rw [fReadNext_eq s id ⟨o, false, av⟩ below hact, hT, hB]
            rw [show checkIsEmptyT o (LTok.lClose o :: []) = ((true : Bool), ([] : List LTok))
              from by
                show (if o = o then _ else _) = _
                rw [if_pos rfl]]
            rfl
          · simp
      | cons q bel2 =>
          refine ⟨false, { toks := m, activeR := q :: bel2, nextStamp := s.nextStamp + 1 },
            ?_, hB ▸ hbelow, ?_⟩
          · rw [fReadNext_eq s id ⟨o, false, av⟩ below hact, hT, hB]
            rw [show checkIsEmptyT o (LTok.lClose o :: m) = ((true : Bool), m) from by
              show (if o = o then _ else _) = _
              rw [if_pos rfl]]
            rfl
          · simp
  | closeO =>
      cases hB : below with
      | nil =>
          have hm : m = [] := StackOK_nil_inv m (hB ▸ hbelow)
          subst hm
          refine ⟨false, { toks := [], activeR := [], nextStamp := s.nextStamp + 1 },
            ?_, StackOK.nil, ?_⟩
          · rw [fReadNext_eq s id ⟨o, true, av⟩ below hact, hT, hB]
            rw [show closeElseSeparatorT o (LTok.lClose o :: [])
                = Except.ok ((true : Bool), ([] : List LTok)) from by
              show (if o = o then _ else _) = _
              rw [if_pos rfl]]
            rfl
          · simp
      | cons q bel2 =>
          refine ⟨false, { toks := m, activeR := q :: bel2, nextStamp := s.nextStamp + 1 },
            ?_, hB ▸ hbelow, ?_⟩
          · rw [fReadNext_eq s id ⟨o, true, av⟩ below hact, hT, hB]
            rw [show closeElseSeparatorT o (LTok.lClose o :: m)
                = Except.ok ((true : Bool), m) from by
              show (if o = o then _ else _) = _
              rw [if_pos rfl]]
            rfl
          · simp
  | firstArr =>
      rename_i mid hv1 hv2
      have hcie : checkIsEmptyT false T = ((false : Bool), T) := by
        cases hv1 <;> rfl
      obtain ⟨s3, hfv, hsok3, hlen3⟩ := fValueR_stack
        { s with toks := T, activeR := (id, ⟨false, true, av⟩) :: below }
        T mid rfl hv1
        (StackOK.cons id ⟨false, true, av⟩ below mid m hv2 hbelow)
      refine ⟨true, s3, ?_, hsok3, ?_⟩
      · rw [fReadNext_eq s id ⟨false, false, av⟩ below hact, hT, hcie]
        show (fValueR { s with
            toks := T,
            activeR := (id, ⟨false, true, av⟩) :: below }).map (fun s3 => (true, s3))
          = Except.ok (true, s3)
        rw [hfv]
        rfl
      · exact hlen3
  | firstObj =>
      rename_i k ts1 mid hv1 hv2
      obtain ⟨s3, hfv, hsok3, hlen3⟩ := fValueR_stack
        { s with toks := ts1, activeR := (id, ⟨true, true, av⟩) :: below }
        ts1 mid rfl hv1
        (StackOK.cons id ⟨true, true, av⟩ below mid m hv2 hbelow)
      refine ⟨true, s3, ?_, hsok3, ?_⟩
      · rw [fReadNext_eq s id ⟨true, false, av⟩ below hact, hT]
        rw [show checkIsEmptyT true (LTok.lKey k :: ts1) = ((false : Bool), LTok.lKey k :: ts1)
          from rfl]
        show (fValueR { s with
            toks := ts1,
            activeR := (id, ⟨true, true, av⟩) :: below }).map (fun s3 => (true, s3))
          = Except.ok (true, s3)
        rw [hfv]
        rfl
      · have h4 : s3.toks.length < ts1.length := hlen3
        simp only [List.length_cons]
        omega
  | moreArr =>
      rename_i ts1 mid hv1 hv2
      obtain ⟨s3, hfv, hsok3, hlen3⟩ := fValueR_stack
        { s with toks := ts1, activeR := (id, ⟨false, true, av⟩) :: below }
        ts1 mid rfl hv1
        (StackOK.cons id ⟨false, true, av⟩ below mid m hv2 hbelow)
      refine ⟨true, s3, ?_, hsok3, ?_⟩
      · rw [fReadNext_eq s id ⟨false, true, av⟩ below hact, hT]
        rw [show closeElseSeparatorT false (LTok.lComma :: ts1)
            = Except.ok ((false : Bool), ts1) from rfl]
        show (fValueR { s with
            toks := ts1,
            activeR := (id, ⟨false, true, av⟩) :: below }).map (fun s3 => (true, s3))
          = Except.ok (true, s3)
        rw [hfv]
        rfl
      · have h4 : s3.toks.length < ts1.length := hlen3
        simp only [List.length_cons]
        omega
  | moreObj =>
      rename_i k ts1 mid hv1 hv2
      obtain ⟨s3, hfv, hsok3, hlen3⟩ := fValueR_stack
        { s with toks := ts1, activeR := (id, ⟨true, true, av⟩) :: below }
        ts1 mid rfl hv1
        (StackOK.cons id ⟨true, true, av⟩ below mid m hv2 hbelow)
      refine ⟨true, s3, ?_, hsok3, ?_⟩
      · rw [fReadNext_eq s id ⟨true, true, av⟩ below hact, hT]
        rw [show closeElseSeparatorT true (LTok.lComma :: (LTok.lKey k :: ts1))
            = Except.ok ((false : Bool), LTok.lKey k :: ts1) from rfl]
        show (fValueR { s with
            toks := ts1,
            activeR := (id, ⟨true, true, av⟩) :: below }).map (fun s3 => (true, s3))
          = Except.ok (true, s3)
        rw [hfv]
        rfl
      · have h4 : s3.toks.length < ts1.length := hlen3
        simp only [List.length_cons]
        omega

/-- The merged drain loop succeeds on an invariant-satisfying state whenever
the fuel exceeds the input length, and leaves at most `target` instances. -/
theorem drainTo_ok : ∀ (fuel target : Nat) (s : RState),
    StackOK s.activeR s.toks → s.toks.length < fuel →
    ∃ s', drainTo fuel target s = .ok s' ∧ StackOK s'.activeR s'.toks
      ∧ s'.activeR.length ≤ target := by
  intro fuel
  induction fuel with
  | zero =>
      intro target s hs hlen
      omega
  | succ f ih =>
      intro target s hs hlen
      by_cases hle : s.activeR.length ≤ target
      · refine ⟨s, ?_, hs, hle⟩
        unfold drainTo
        rw [if_pos hle]
      · obtain ⟨p, bel, hact⟩ : ∃ p b, s.activeR = p :: b := by
          cases hA : s.activeR with
          | nil =>
              rw [hA] at hle
              simp at hle
          | cons p b => exact ⟨p, b, rfl⟩
        obtain ⟨id, inst⟩ := p
        obtain ⟨b, s1, hf, hs1, hlen1⟩ := fReadNext_ok s id inst bel hact hs
        obtain ⟨s', hd, hs', hle'⟩ := ih target s1 hs1 (by omega)
        refine ⟨s', ?_, hs', hle'⟩
        unfold drainTo
        rw [if_neg hle, hf]
        show drainTo f target s1 = Except.ok s'
        exact hd

/-- `open` only clears the availability bit of the top instance and so
preserves the invariant. -/
theorem StackOK_openR (s : RState) (stamp : Nat) (obj : Bool) (s1 : RState)
    (h : openR s stamp obj = .ok s1) (hs : StackOK s.activeR s.toks) :
    StackOK s1.activeR s1.toks := by
  unfold openR at h
  by_cases hst : stamp ≠ s.nextStamp
  · rw [if_pos hst] at h
    cases h
  · rw [if_neg hst] at h
    cases hA : s.activeR with
    | nil =>
        rw [hA] at h
        cases h
    | cons p bel =>
        obtain ⟨id, inst⟩ := p
        rw [hA] at h
        have h2 : (if inst.object ≠ obj then Except.error JErr.typeErr
            else if inst.avail = true then
              Except.ok
                ({ toks := s.toks,
                   activeR := (id, (⟨inst.object, inst.opened, false⟩ : RInst)) :: bel,
                   nextStamp := s.nextStamp } : RState)
            else Except.error JErr.readerErr) = Except.ok s1 := h
        by_cases hobj : inst.object ≠ obj
        · rw [if_pos hobj] at h2
          cases h2
        · rw [if_neg hobj] at h2
          by_cases hav : inst.avail = true
          · rw [if_pos hav] at h2
            injection h2 with h1
            rw [hA] at hs
            obtain ⟨m, hrt, hbel⟩ := StackOK_cons_inv id inst bel s.toks hs
            rw [← h1]
            exact StackOK.cons id ⟨inst.object, inst.opened, false⟩ bel s.toks m hrt hbel
          · rw [if_neg hav] at h2
            cases h2

/-- Any successful `fReadNextValue` preserves the invariant. -/
theorem StackOK_fReadNext (s : RState) (b : Bool) (s1 : RState)
    (h : fReadNext s = .ok (b, s1)) (hs : StackOK s.activeR s.toks) :
    StackOK s1.activeR s1.toks := by
  cases hA : s.activeR with
  | nil =>
      rw [show fReadNext s = .error .readerErr from by unfold fReadNext; rw [hA]] at h
      cases h
  | cons p bel =>
      obtain ⟨id, inst⟩ := p
      obtain ⟨b', s', hf, hok, _⟩ := fReadNext_ok s id inst bel hA hs
      rw [hf] at h
      injection h with h1
      injection h1 with hb hsx
      rw [← hsx]
      exact hok

/-- Any successful drain preserves the invariant (fuel above input length). -/
theorem StackOK_drain (fuel target : Nat) (s s1 : RState)
    (h : drainTo fuel target s = .ok s1) (hlen : s.toks.length < fuel)
    (hs : StackOK s.activeR s.toks) :
    StackOK s1.activeR s1.toks := by
  obtain ⟨s', hd, hs', _⟩ := drainTo_ok fuel target s hs hlen
  rw [hd] at h
  injection h with h1
  rw [← h1]
  exact hs'

/-- Any successful `next` preserves the invariant. -/
theorem StackOK_nextR (s : RState) (id : Nat) (b : Bool) (s1 : RState)
    (h : nextR s id = .ok (b, s1)) (hs : StackOK s.activeR s.toks) :
    StackOK s1.activeR s1.toks := by
  unfold nextR at h
  cases hdep : depthBelow s.activeR id with
  | none =>
      rw [hdep] at h
      cases h
  | some target =>
      rw [hdep] at h
      have h2 : (drainTo (s.toks.length + 1) target s).bind (fun s2 => fReadNext s2)
          = Except.ok (b, s1) := h
      cases hdr : drainTo (s.toks.length + 1) target s with
      | error e =>
          rw [hdr] at h2
          cases h2
      | ok s2 =>
          rw [hdr] at h2
          have h' : fReadNext s2 = .ok (b, s1) := h2
          have hs2 := StackOK_drain (s.toks.length + 1) target s s2 hdr (by omega) hs
          exact StackOK_fReadNext s2 b s1 h' hs2

/-- Any successful `close` preserves the invariant. -/
theorem StackOK_closeRS (s : RState) (id : Nat) (s1 : RState)
    (h : closeRS s id = .ok s1) (hs : StackOK s.activeR s.toks) :
    StackOK s1.activeR s1.toks := by
  unfold closeRS at h
  cases hdep : depthBelow s.activeR id with
  | none =>
      rw [hdep] at h
      injection h with h1
      rw [← h1]
      exact hs
  | some target =>
      rw [hdep] at h
      exact StackOK_drain (s.toks.length + 1) (target - 1) s s1 h (by omega) hs

/-- Every public reader operation preserves the invariant. -/
theorem StackOK_stepR (s : RState) (op : ROp) (hs : StackOK s.activeR s.toks) :
    StackOK (stepR s op).activeR (stepR s op).toks := by
  cases op with
  | openOp stamp obj =>
      simp only [stepR]
      cases ho : openR s stamp obj with
      | error e => exact hs
      | ok s1 =>
          have hs1 := StackOK_openR s stamp obj s1 ho hs
          show StackOK
            (match s1.activeR with
              | [] => s1
              | (id, _) :: _ =>
                match nextR s1 id with
                | Except.ok (_, s2) => s2
                | Except.error _ => s).activeR
            (match s1.activeR with
              | [] => s1
              | (id, _) :: _ =>
                match nextR s1 id with
                | Except.ok (_, s2) => s2
                | Except.error _ => s).toks
          cases hA : s1.activeR with
          | nil => exact hs1
          | cons p bel =>
              obtain ⟨id2, i2⟩ := p
              show StackOK
                (match nextR s1 id2 with
                  | Except.ok (_, s2) => s2
                  | Except.error _ => s).activeR
                (match nextR s1 id2 with
                  | Except.ok (_, s2) => s2
                  | Except.error _ => s).toks
              cases hn : nextR s1 id2 with
              | error e => exact hs
              | ok bs2 =>
                  obtain ⟨b2, s2⟩ := bs2
                  exact StackOK_nextR s1 id2 b2 s2 hn hs1
  | nextOp id =>
      simp only [stepR]
      cases hn : nextR s id with
      | error e => exact hs
      | ok bs2 =>
          obtain ⟨b2, s2⟩ := bs2
          exact StackOK_nextR s id b2 s2 hn hs
  | closeROp id =>
      simp only [stepR]
      cases hc : closeRS s id with
      | error e => exact hs
      | ok s2 => exact StackOK_closeRS s id s2 hc hs

/-- The invariant holds after any trace of reader operations. -/
theorem StackOK_runR (s : RState) (ops : List ROp) (hs : StackOK s.activeR s.toks) :
    StackOK (runR s ops).activeR (runR s ops).toks := by
  unfold runR
  induction ops generalizing s with
  | nil => exact hs
  | cons o os ih => exact ih (stepR s o) (StackOK_stepR s o hs)

/-- `json::Read` on a whole well-formed document succeeds and establishes the
invariant (running `checkDone` right away for an unnested primitive). -/
theorem initR_ok (ts : List LTok) (hdoc : RTok none ts []) :
    ∃ s0, initR ts = .ok s0 ∧ StackOK s0.activeR s0.toks := by
  cases hdoc with
  | primTk p =>
      refine ⟨{ toks := [], activeR := [], nextStamp := 0 }, ?_, StackOK.nil⟩
      rfl
  | strTk q =>
      refine ⟨{ toks := [], activeR := [], nextStamp := 0 }, ?_, StackOK.nil⟩
      rfl
  | beginTk b ts1 =>
      rename_i hsub
      refine ⟨{ toks := ts1, activeR := [(1, ⟨b, false, true⟩)], nextStamp := 1 }, ?_, ?_⟩
      · rfl
      · exact StackOK.cons 1 ⟨b, false, true⟩ [] ts1 [] hsub StackOK.nil

/-- C4: for every well-formed input document and every pattern of
reader-handle use, the final drain performed when the root reader and all
descendant composite handles are dropped (`ReaderState::~ReaderState`,
json-reader.h 69-73, looping `fReadNextValue`) succeeds, consumes the input
through the end of the top-level value, and the end-of-document check — which
`fReadNextValue` invokes exactly when the active stack empties — reports
success; the same check rejects any trailing non-whitespace token. -/
theorem c4_reader_drain (ts : List LTok) (ops : List ROp) (hdoc : RTok none ts []) :
    (∃ s0, initR ts = .ok s0
      ∧ ∃ s', drainTo ((runR s0 ops).toks.length + 1) 0 (runR s0 ops) = .ok s'
          ∧ s'.toks = [] ∧ s'.activeR = [] ∧ checkDoneT s'.toks = .ok ())
    ∧ (∀ (u : LTok) (us : List LTok), checkDoneT (u :: us) = .error .deserializeErr) := by
  constructor
  · obtain ⟨s0, hinit, hs0⟩ := initR_ok ts hdoc
    refine ⟨s0, hinit, ?_⟩
    have hrun := StackOK_runR s0 ops hs0
    obtain ⟨s', hd, hs', hle⟩ :=
      drainTo_ok ((runR s0 ops).toks.length + 1) 0 (runR s0 ops) hrun (by omega)
    have hA : s'.activeR = [] := List.length_eq_zero.mp (by omega)
    have hT : s'.toks = [] := by
      rw [hA] at hs'
      exact StackOK_nil_inv s'.toks hs'
    refine ⟨s', hd, hT, hA, ?_⟩
    rw [hT]
    rfl
  · intro u us
    rfl

/-- Witness for C4: the two-token document `[]` (an empty array) is read by
`json::Read`, and with no further handle operations the destructor drain
empties the stack, exhausts the input, and passes the end-of-document check. -/
theorem c4_witness :
    (∃ s0, initR [LTok.lBegin false, LTok.lClose false] = .ok s0
      ∧ ∃ s', drainTo ((runR s0 []).toks.length + 1) 0 (runR s0 []) = .ok s'
          ∧ s'.toks = [] ∧ s'.activeR = [] ∧ checkDoneT s'.toks = .ok ())
    ∧ (∀ (u : LTok) (us : List LTok), checkDoneT (u :: us) = .error .deserializeErr) :=
  c4_reader_drain [LTok.lBegin false, LTok.lClose false] []
    (RTok.beginTk false [LTok.lClose false] [] (RTok.closeE false []))

end Jsonify
